import Mathlib

/-! kenretto/pager: a shallow embedding of the pagination core.

The development follows the Go sources `pager.go`, `range.go`, `typeconvert.go`
and `driver/gorm.go`.

Conventions of the embedding:

* a Go `string` is a Lean `String` (valid UTF-8 text); `len` of a string and
  `strings.Index` count bytes, `[]rune(s)` is the list of characters;
* a Go `int` / `int64` is an `Int` kept inside the signed 64-bit range by
  `wrapInt64` wherever the source does arithmetic;
* a Go `map` is a `GoMap`: its entries with pairwise distinct keys, listed in
  the order a `range` statement visits them (Go leaves that order open, so a
  statement about every `GoMap` is a statement about every visiting order);
  the one loop that changes the map it ranges over, in `ParseRange`, takes
  its visiting order as an explicit argument;
* a runtime panic is `none`.
-/

namespace pager

/-! ## Go maps -/

/-- A Go map: entries with pairwise distinct keys, in visiting order. -/
structure GoMap (K V : Type) where
  entries : List (K × V)
  nodup : (entries.map Prod.fst).Nodup
  deriving DecidableEq

namespace GoMap

variable {K V : Type} [DecidableEq K]

/-- The result of `make(map[K]V)`. -/
def empty : GoMap K V := ⟨[], List.nodup_nil⟩

/-- The lookup `v, ok := m[k]`. -/
def get (m : GoMap K V) (k : K) : Option V :=
  (m.entries.find? (fun e => decide (e.1 = k))).map Prod.snd

/-- The builtin `delete(m, k)`. -/
def delete (m : GoMap K V) (k : K) : GoMap K V :=
  ⟨m.entries.filter (fun e => decide (e.1 ≠ k)),
    List.Nodup.sublist (List.Sublist.map Prod.fst (List.filter_sublist m.entries)) m.nodup⟩

/-- The assignment `m[k] = v`. -/
def set (m : GoMap K V) (k : K) (v : V) : GoMap K V :=
  ⟨(k, v) :: m.entries.filter (fun e => decide (e.1 ≠ k)), by
    rw [List.map_cons, List.nodup_cons]
    refine ⟨?_, (m.delete k).nodup⟩
    simp [List.mem_map, List.mem_filter]⟩

/-- The keys of the map in visiting order. -/
def keys (m : GoMap K V) : List K := m.entries.map Prod.fst

/-- The builtin `len(m)`. -/
def len (m : GoMap K V) : Nat := m.entries.length

end GoMap

/-! ## The parts of the Go standard library the package calls -/

/-- Wrap-around of a mathematical integer into the signed 64-bit range. -/
def wrapInt64 (x : Int) : Int := (x + 2 ^ 63) % 2 ^ 64 - 2 ^ 63

/-- Value of an ASCII decimal digit, `none` for any other character. -/
def digitVal (c : Char) : Option Nat :=
  if 48 ≤ c.toNat ∧ c.toNat ≤ 57 then some (c.toNat - 48) else none

/-- Decimal value of a list of digits read left to right, starting from `acc`;
`none` as soon as a non-digit is met. -/
def parseDigits : Nat → List Char → Option Nat
  | acc, [] => some acc
  | acc, c :: cs =>
    match digitVal c with
    | none => none
    | some d => parseDigits (acc * 10 + d) cs

/-- The call `strconv.Atoi(s)`: `some n` when `s` is an optional sign followed by
one or more decimal digits whose value fits a signed 64-bit integer, and
`none` (a non-nil `err`) otherwise. Every caller in the package discards the
returned number when `err` is non-nil. -/
def Atoi (s : String) : Option Int :=
  match s.data with
  | [] => none
  | '-' :: [] => none
  | '+' :: [] => none
  | '-' :: ds =>
    match parseDigits 0 ds with
    | some n => if n ≤ 2 ^ 63 then some (-(n : Int)) else none
    | none => none
  | '+' :: ds =>
    match parseDigits 0 ds with
    | some n => if n < 2 ^ 63 then some (n : Int) else none
    | none => none
  | ds =>
    match parseDigits 0 ds with
    | some n => if n < 2 ^ 63 then some (n : Int) else none
    | none => none

/-- Splitting of a character list at every occurrence of `sep`; the result is
never empty. -/
def splitChars (sep : Char) : List Char → List (List Char)
  | [] => [[]]
  | c :: cs =>
    if c = sep then [] :: splitChars sep cs
    else
      match splitChars sep cs with
      | [] => [[c]]
      | h :: t => (c :: h) :: t

/-- The call `strings.Split(s, ",")`. -/
def Split (s : String) : List String :=
  (splitChars ',' s.data).map String.mk

/-- The call `strings.HasPrefix(s, "-")` or `strings.HasPrefix(s, "+")`, the
one-character cases the package uses. -/
def HasPrefix (s : String) (c : Char) : Bool :=
  match s.data with
  | [] => false
  | d :: _ => decide (d = c)

/-- The call `strings.TrimPrefix(s, "-")` or `strings.TrimPrefix(s, "+")`. -/
def TrimPrefix (s : String) (c : Char) : String :=
  match s.data with
  | [] => s
  | d :: ds => if d = c then String.mk ds else s

/-- Byte offset of the first `sep` in a character list, counted from `off`;
`none` when `sep` does not occur. -/
def byteIndexFrom (sep : Char) : Nat → List Char → Option Nat
  | _, [] => none
  | off, c :: cs => if c = sep then some off else byteIndexFrom sep (off + c.utf8Size) cs

/-- The call `strings.Index(v, ":")`: the byte offset of the first colon,
`none` standing for the result `-1`. -/
def Index (v : String) : Option Nat := byteIndexFrom ':' 0 v.data

/-- The call `sort.Sort(Int64Slice(rs))`: the slice in ascending order. -/
def sortInt64 (rs : List Int) : List Int := rs.insertionSort (fun a b => a ≤ b)

/-! ## pager.go and range.go: the data model -/

/-- A value stored behind `interface{}`: the string and the string slice that
`ParsingQuery` stores, and `int` for any other value a configured default or a
record field may hold. -/
inductive Value
  | str (s : String)
  | strs (l : List String)
  | int (n : Int)
  deriving DecidableEq, Repr

/-- The source type `Where`, `map[string]interface{}`. -/
abbrev Where := GoMap String Value

/-- The source type `Sort`, an `int`. -/
abbrev SortDir := Int

/-- The constant `Desc`. -/
abbrev Desc : SortDir := -1

/-- The constant `Asc`. -/
abbrev Asc : SortDir := 1

/-- The source struct `SortInfo`; `Dir` is its field `Sort`. -/
structure SortInfo where
  Key : String
  Dir : SortDir
  deriving DecidableEq, Repr

/-- The source struct `FilterKey`: the names of the four control parameters. -/
structure FilterKey where
  Page : String
  Rows : String
  Sorts : String
  Range : String
  deriving DecidableEq, Repr

/-- The source type `RangeKey`, a string. -/
abbrev RangeKey := String

/-- The source type `RangeType`, an `int`. -/
abbrev RangeType := Int

/-- The constant `Gte`, greater than or equal to. -/
abbrev Gte : RangeType := 0

/-- The constant `Lte`, less than or equal to. -/
abbrev Lte : RangeType := 1

/-- The source type `Range`, `map[RangeKey]map[RangeType]int64`. -/
abbrev Range := GoMap RangeKey (GoMap RangeType Int)

/-- The part of `*http.Request` the package reads: `request.URL.Query()`, the
map from parameter name to the values given for it, in request order. -/
structure Request where
  query : GoMap String (List String)

/-- The call `request.URL.Query().Get(key)`: the first value of `key`, or the
empty string. -/
def Request.Get (request : Request) (key : String) : String :=
  match request.query.get key with
  | some (v :: _) => v
  | _ => ""

/-- The index expression `request.URL.Query()[key]`. -/
def Request.Values (request : Request) (key : String) : List String :=
  match request.query.get key with
  | some vs => vs
  | none => []

/-- A record of the queried type: its fields by name. -/
abbrev Record := GoMap String Value

/-- The `reflect.Type` of a record: its field names. -/
abbrev Typ := List String

/-- One call on the `Driver` interface, with its argument. -/
inductive DriverCall
  | SetTyp (typ : Typ)
  | Limit (limit : Int)
  | Sort (kv : List SortInfo)
  | Index (index : String)
  | Skip (skip : Int)
  | Range (r : Range)
  | Where (kv : Where)
  | Find
  | Count

/-- The storage side of a `Driver`: what its `Find` stores into the container
and what its `Count` returns, given the calls it has received so far. -/
structure Driver where
  Find : List DriverCall → List Record
  Count : List DriverCall → Int

/-- The source struct `Result`. `NextID` and `PrevID` are `none` for `nil`. -/
structure Result where
  Data : List Record
  NextID : Option Value
  PrevID : Option Value
  Count : Int
  Rows : Int

/-- The source struct `Pagination`. -/
structure Pagination where
  ctx : Request
  defaultWhere : Where
  defaultLimit : Int
  index : String
  driver : Driver
  dataTyp : Option Typ
  paginationField : String
  result : Option Result
  filterKey : FilterKey
  fieldMapping : GoMap String String
  disabledField : List String

/-! ## range.go -/

/-- The method `Range.Add`: create the inner map when the key has none, then
store the bound. -/
def Range.Add (r : Range) (key : RangeKey) (typ : RangeType) (val : Int) : Range :=
  match r.get key with
  | none => r.set key ((GoMap.empty : GoMap RangeType Int).set typ val)
  | some m => r.set key (m.set typ val)

/-- The method `Range.isGte`. -/
def Range.isGte (key val : String) : Bool :=
  !HasPrefix key '-' && decide ((Split val).length = 1)

/-- The method `Range.isLte`. -/
def Range.isLte (key val : String) : Bool :=
  HasPrefix key '-' && decide ((Split val).length = 1)

/-- The method `Range.isGteLte`. -/
def Range.isGteLte (val : String) : Bool :=
  decide ((Split val).length = 2)

/-- The conversion of one range component in `getVal`: the value `strconv.Atoi`
returns, and 0 when it reports an error. -/
def Range.atoiOrZero (s : String) : Int :=
  match Atoi s with
  | some v => v
  | none => 0

/-- The method `Range.getVal`. With one component the result has one element;
otherwise the first two components are converted and sorted. `none` is the
index panic of `vals[i]`, which needs a split with no component. -/
def Range.getVal (val : String) : Option (List Int) :=
  match Split val with
  | [v] => some [Range.atoiOrZero v]
  | v0 :: v1 :: _ => some (sortInt64 [Range.atoiOrZero v0, Range.atoiOrZero v1])
  | [] => none

/-- The method `Range.getKey`. -/
def Range.getKey (key : String) : RangeKey :=
  TrimPrefix (TrimPrefix key '-') '+'

/-- The method `Range.parseVal`. The byte offset `index` of the first colon is
used to slice the rune slice `runeVal`: `runeVal[0:index]` panics when `index`
is -1, and `runeVal[index+1:]` panics when `index+1` exceeds `len(runeVal)`. -/
def Range.parseVal (v : String) : Option (String × String) :=
  match Index v with
  | none => none
  | some index =>
    if index + 1 ≤ v.data.length then
      some (String.mk (v.data.take index), String.mk (v.data.drop (index + 1)))
    else none

/-- The body of the loop of `Range.Parse` for one value `v` of the `range`
parameter; the three `case`s are tried in source order. -/
def Range.parseEntry (r : Range) (v : String) : Option Range :=
  match Range.parseVal v with
  | none => none
  | some (key, val) =>
    if Range.isGte key val then
      match Range.getVal val with
      | some (x :: _) => some (r.Add (Range.getKey key) Gte x)
      | _ => none
    else if Range.isLte key val then
      match Range.getVal val with
      | some (x :: _) => some (r.Add (Range.getKey key) Lte x)
      | _ => none
    else if Range.isGteLte val then
      match Range.getVal val with
      | some (x :: y :: _) => some ((r.Add (Range.getKey key) Gte x).Add (Range.getKey key) Lte y)
      | _ => none
    else some r

/-- The loop of `Range.Parse` over the values of the `range` parameter. -/
def Range.parseEntries : Range → List String → Option Range
  | r, [] => some r
  | r, v :: vs =>
    match Range.parseEntry r v with
    | none => none
    | some r1 => Range.parseEntries r1 vs

/-- The method `Range.Parse`: the receiver after the call, `none` when the call
panics. -/
def Range.Parse (r : Range) (request : Request) : Option Range :=
  Range.parseEntries r (request.Values "range")

/-! ## pager.go -/

/-- The function `New`. -/
def New (request : Request) (driver : Driver) : Pagination :=
  { ctx := request
    defaultWhere := GoMap.empty
    defaultLimit := 12
    index := ""
    driver := driver
    dataTyp := none
    paginationField := ""
    result := none
    filterKey := { Page := "page", Rows := "rows", Sorts := "sorts", Range := "range" }
    fieldMapping := GoMap.empty
    disabledField := [] }

/-- The method `SetFilterKey`. -/
def Pagination.SetFilterKey (pagination : Pagination) (key : FilterKey) : Pagination :=
  { pagination with filterKey := key }

/-- The method `AddDisableField`. -/
def Pagination.AddDisableField (pagination : Pagination) (fields : List String) : Pagination :=
  { pagination with disabledField := pagination.disabledField ++ fields }

/-- The method `AddFilterKeyMapping`. -/
def Pagination.AddFilterKeyMapping (pagination : Pagination) (key column : String) : Pagination :=
  { pagination with fieldMapping := pagination.fieldMapping.set key column }

/-- The method `SetPaginationField`. -/
def Pagination.SetPaginationField (pagination : Pagination) (field : String) : Pagination :=
  { pagination with paginationField := field }

/-- The method `SetIndex`. -/
def Pagination.SetIndex (pagination : Pagination) (index : String) : Pagination :=
  { pagination with index := index }

/-- The method `Where`. -/
def Pagination.Where (pagination : Pagination) (kv : Where) : Pagination :=
  { pagination with defaultWhere := kv }

/-- The method `Limit`. -/
def Pagination.Limit (pagination : Pagination) (limit : Int) : Pagination :=
  { pagination with defaultLimit := limit }

/-- The function `ParseSkip`. It reads the parameter named "page". -/
def ParseSkip (request : Request) : Int :=
  match Atoi (request.Get "page") with
  | none => 0
  | some page => if page = 0 then 0 else wrapInt64 (page - 1)

/-- The name a sort component or request key is stored under: its entry in the
mapping when it has one, itself otherwise. -/
def mapped (filterMapping : GoMap String String) (column : String) : String :=
  match filterMapping.get column with
  | some v => v
  | none => column

/-- The body of the loop of `ParseSorts` for one component. -/
def sortEntry (filterMapping : GoMap String String) (sort : String) : SortInfo :=
  if HasPrefix sort '-' then
    { Key := mapped filterMapping (TrimPrefix sort '-'), Dir := Desc }
  else
    { Key := mapped filterMapping (TrimPrefix sort '+'), Dir := Asc }

/-- The function `ParseSorts`. It reads the parameter named "sorts". -/
def ParseSorts (request : Request) (filterMapping : GoMap String String) : List SortInfo :=
  if request.Get "sorts" = "" then []
  else (Split (request.Get "sorts")).map (sortEntry filterMapping)

/-- The method `ParsingLimit`. -/
def Pagination.ParsingLimit (pagination : Pagination) : Int :=
  match Atoi (pagination.ctx.Get pagination.filterKey.Rows) with
  | none => pagination.defaultLimit
  | some limit => if limit = 0 then pagination.defaultLimit else limit

/-- The body of the loop of `ParseRange` at `key`. An entry that was removed
before the loop reached it is not produced. -/
def Pagination.renameEntry (pagination : Pagination) (rangeFilter : Range) (key : RangeKey) : Range :=
  match rangeFilter.get key with
  | none => rangeFilter
  | some m =>
    match pagination.fieldMapping.get key with
    | some column => (rangeFilter.set column m).delete key
    | none => rangeFilter

/-- The loop of `ParseRange` visiting the keys `visit` in turn. -/
def Pagination.renameEntries (pagination : Pagination) (rangeFilter : Range)
    (visit : List RangeKey) : Range :=
  visit.foldl pagination.renameEntry rangeFilter

/-- The method `ParseRange`; `none` when `Range.Parse` panics. The loop ranges
over the map it assigns to and deletes from: `visit` gives, for the parsed
map, the keys the `range` statement produces, in order. Go leaves that order
open and may or may not produce an entry the loop itself creates, so every
list that holds the keys of the parsed map is a possible `visit` (see
`admissible`). -/
def Pagination.ParseRange (pagination : Pagination) (visit : Range → List RangeKey) :
    Option Range :=
  match Range.Parse GoMap.empty pagination.ctx with
  | none => none
  | some rangeFilter => some (pagination.renameEntries rangeFilter (visit rangeFilter))

/-- The visiting orders Go allows for the loop of `ParseRange`: every entry the
map holds when the loop starts is reached; entries the loop creates may be
reached too, in any position. -/
def admissible (visit : Range → List RangeKey) : Prop :=
  ∀ (r : Range) (k : RangeKey), k ∈ r.keys → k ∈ visit r

/-- The body of the loop of `ParsingQuery` for one request parameter. -/
def Pagination.queryEntry (pagination : Pagination) (w : pager.Where) (e : String × List String) : pager.Where :=
  match e.2 with
  | [] => w
  | [v] => if v ≠ "" then w.set (mapped pagination.fieldMapping e.1) (Value.str v) else w
  | v0 :: v1 :: vs => w.set (mapped pagination.fieldMapping e.1) (Value.strs (v0 :: v1 :: vs))

/-- The method `ParsingQuery`. -/
def Pagination.ParsingQuery (pagination : Pagination) : pager.Where :=
  pagination.ctx.query.entries.foldl pagination.queryEntry GoMap.empty

/-- The test of `mergeWhere` for the four control-parameter names. -/
def FilterKey.reserved (fk : FilterKey) (k : String) : Bool :=
  decide (k = fk.Rows) || decide (k = fk.Sorts) || decide (k = fk.Page) || decide (k = fk.Range)

/-- The body of the loop of `mergeWhere` for one default entry. -/
def Pagination.mergeEntry (pagination : Pagination) (w : pager.Where) (e : String × Value) : pager.Where :=
  if pagination.filterKey.reserved e.1 then w else w.set e.1 e.2

/-- The method `mergeWhere`. -/
def Pagination.mergeWhere (pagination : Pagination) (w : pager.Where) : pager.Where :=
  ((((pagination.defaultWhere.entries.foldl pagination.mergeEntry w).delete
    pagination.filterKey.Rows).delete pagination.filterKey.Sorts).delete
    pagination.filterKey.Page).delete pagination.filterKey.Range

/-- The filter `Find` builds: `mergeWhere(ParsingQuery())` with every disabled
field deleted. -/
def Pagination.filter (pagination : Pagination) : pager.Where :=
  pagination.disabledField.foldl (fun w column => w.delete column)
    (pagination.mergeWhere pagination.ParsingQuery)

/-- The outcome of one call of `Find`: the calls made on the driver, in order,
and the receiver as `Find` returns it, `none` when `Find` panics. -/
structure FindRun where
  calls : List DriverCall
  returned : Option Pagination

/-- The field read `FieldByName(field).Interface()` on the record at the given
end of the page; `none` is the panic on a field the record does not have. -/
def fieldOf (record : Option Record) (field : String) : Option Value :=
  match record with
  | none => none
  | some rec => rec.get field

/-- The method `Find`. `structure` is the sample record whose type the driver
is told, and `visit` the visiting order of the loop of `ParseRange`. -/
def Pagination.Find (pagination : Pagination) (structure_ : Record)
    (visit : Range → List RangeKey) : FindRun :=
  let limit := pagination.ParsingLimit
  let typ : Typ := structure_.keys
  let c5 : List DriverCall :=
    [DriverCall.SetTyp typ,
     DriverCall.Limit limit,
     DriverCall.Sort (ParseSorts pagination.ctx pagination.fieldMapping),
     DriverCall.Index pagination.index,
     DriverCall.Skip (wrapInt64 (limit * ParseSkip pagination.ctx))]
  match pagination.ParseRange visit with
  | none => { calls := c5, returned := none }
  | some r =>
    let c7 := c5 ++ [DriverCall.Range r, DriverCall.Where pagination.filter]
    let data := pagination.driver.Find c7
    let c8 := c7 ++ [DriverCall.Find]
    let count := pagination.driver.Count c8
    let c9 := c8 ++ [DriverCall.Count]
    let result : Result :=
      { Data := data, NextID := none, PrevID := none, Count := count, Rows := limit }
    if 0 < data.length ∧ pagination.paginationField ≠ "" then
      match fieldOf data.getLast? pagination.paginationField,
            fieldOf data.head? pagination.paginationField with
      | some next, some prev =>
        { calls := c9
          returned := some { pagination with
            dataTyp := some typ
            result := some { result with NextID := some next, PrevID := some prev } } }
      | _, _ => { calls := c9, returned := none }
    else
      { calls := c9
        returned := some { pagination with dataTyp := some typ, result := some result } }

/-! ## Reading the driver calls of a run of `Find` -/

/-- The argument of the first `Skip` call of a run. -/
def FindRun.skipArg (run : FindRun) : Option Int :=
  run.calls.findSome? (fun c => match c with
    | DriverCall.Skip skip => some skip
    | _ => none)

/-- The argument of the first `Limit` call of a run. -/
def FindRun.limitArg (run : FindRun) : Option Int :=
  run.calls.findSome? (fun c => match c with
    | DriverCall.Limit limit => some limit
    | _ => none)

/-- The argument of the first `Sort` call of a run. -/
def FindRun.sortArg (run : FindRun) : Option (List SortInfo) :=
  run.calls.findSome? (fun c => match c with
    | DriverCall.Sort kv => some kv
    | _ => none)

/-- The argument of the first `Range` call of a run. -/
def FindRun.rangeArg (run : FindRun) : Option Range :=
  run.calls.findSome? (fun c => match c with
    | DriverCall.Range r => some r
    | _ => none)

/-- The argument of the first `Where` call of a run. -/
def FindRun.whereArg (run : FindRun) : Option pager.Where :=
  run.calls.findSome? (fun c => match c with
    | DriverCall.Where kv => some kv
    | _ => none)

/-! ## Concrete requests and configurations -/

/-- A driver over an empty table. -/
def emptyDriver : Driver := { Find := fun _ => [], Count := fun _ => 0 }

/-- The request `?page=-1`. -/
def requestNegativePage : Request := ⟨⟨[("page", ["-1"])], by decide⟩⟩

/-- The request `?rows=-5`. -/
def requestNegativeRows : Request := ⟨⟨[("rows", ["-5"])], by decide⟩⟩

/-- The request `?p=3&n=10&o=-a&r=age:18`. -/
def requestRenamed : Request :=
  ⟨⟨[("p", ["3"]), ("n", ["10"]), ("o", ["-a"]), ("r", ["age:18"])], by decide⟩⟩

/-- Control-parameter names `p`, `n`, `o`, `r`. -/
def renamedKeys : FilterKey := { Page := "p", Rows := "n", Sorts := "o", Range := "r" }

/-- The request `?p=3&rows=10`. -/
def requestRenamedPage : Request := ⟨⟨[("p", ["3"]), ("rows", ["10"])], by decide⟩⟩

/-- The request `?page=3&rows=10&n=10&sorts=-a&range=age:18`. -/
def requestDefaultNames : Request :=
  ⟨⟨[("page", ["3"]), ("rows", ["10"]), ("n", ["10"]), ("sorts", ["-a"]), ("range", ["age:18"])],
    by decide⟩⟩

/-- The request `?secret=x&page=2&name=bob&uid=7&tenant=1&tag=a&tag=b&empty=`. -/
def requestFilter : Request :=
  ⟨⟨[("secret", ["x"]), ("page", ["2"]), ("name", ["bob"]), ("uid", ["7"]), ("tenant", ["1"]),
     ("tag", ["a", "b"]), ("empty", [""])], by decide⟩⟩

/-- A configuration over `requestFilter`: defaults `tenant = 7`, `secret = 1`
and `rows = 9`, the alias `uid -> user_id`, and the disabled field `secret`. -/
def paginationFilter : Pagination :=
  (((New requestFilter emptyDriver).Where
    ⟨[("tenant", Value.int 7), ("secret", Value.int 1), ("rows", Value.int 9)], by decide⟩).AddFilterKeyMapping
    "uid" "user_id").AddDisableField ["secret"]

/-- The request `?uid=1&user_id=2`, the parameter `uid` visited first. -/
def requestAliasClash : Request := ⟨⟨[("uid", ["1"]), ("user_id", ["2"])], by decide⟩⟩

/-- The request `?uid=1&user_id=2`, the parameter `user_id` visited first. -/
def requestAliasClashRev : Request := ⟨⟨[("user_id", ["2"]), ("uid", ["1"])], by decide⟩⟩

/-- The configuration `New` builds over a request, with the alias
`uid -> user_id`. -/
def paginationAlias (request : Request) : Pagination :=
  (New request emptyDriver).AddFilterKeyMapping "uid" "user_id"

/-! ## The wording of the specification for sort components -/

/-- The character list whose pieces between separators are `ls`. -/
def joinChars (sep : Char) : List (List Char) → List Char
  | [] => []
  | [a] => a
  | a :: b :: t => a ++ sep :: joinChars sep (b :: t)

/-- The string whose comma-separated components are `cs`, in order. -/
def Join (cs : List String) : String :=
  String.mk (joinChars ',' (cs.map String.data))

/-- The alias of a name: its entry in the alias table when the table has one,
the name itself otherwise. -/
def aliasOf (aliases : GoMap String String) (name : String) : String :=
  (aliases.get name).getD name

/-- The sort entry the specification gives for one component: a leading `-`
gives descending, anything else ascending; the name is the component without
its leading `-` or `+`, replaced by its alias. -/
def sortEntrySpec (aliases : GoMap String String) (component : String) : SortInfo :=
  match component.data with
  | [] => { Key := aliasOf aliases component, Dir := Asc }
  | c :: name =>
    if c = '-' then { Key := aliasOf aliases (String.mk name), Dir := Desc }
    else if c = '+' then { Key := aliasOf aliases (String.mk name), Dir := Asc }
    else { Key := aliasOf aliases component, Dir := Asc }

/-- The request `?sorts=-a,b,b,%2Bc`. -/
def requestSorts : Request := ⟨⟨[("sorts", ["-a,b,b,+c"])], by decide⟩⟩

/-- The alias table `a -> col_a`. -/
def aliasesSorts : GoMap String String := ⟨[("a", "col_a")], by decide⟩

/-- The request whose `range` parameter has the values `entries`, in order. -/
def requestRange (entries : List String) : Request :=
  ⟨⟨[("range", entries)], List.nodup_singleton "range"⟩⟩

/-- The bounds a range map holds, field by field: the field, its lower bound
and its upper bound. -/
def Range.bounds (r : Range) : List (RangeKey × Option Int × Option Int) :=
  r.entries.map (fun e => (e.1, e.2.get Gte, e.2.get Lte))

/-- The field `Range.Parse` stores the bounds of an entry under: the key
`parseVal` returns, without its sign; `none` when `parseVal` panics. -/
def Range.entryField (v : String) : Option RangeKey :=
  (Range.parseVal v).map (fun kv => Range.getKey kv.1)

/-! ## typeconvert.go -/

/-- The function `StringToBool` on a string argument. `ToLower` stands for
`strings.ToLower`, and `len` of a string is its number of bytes. -/
def StringToBool (ToLower : String → String) (val : String) : Bool :=
  decide (ToLower val = "true") || decide (val = "1") ||
    (decide (val ≠ "0") && decide (0 < val.utf8ByteSize))

/-- Lower-casing of the ASCII letters of a string, one admissible reading of
`strings.ToLower` on ASCII text. -/
def asciiLower (s : String) : String := String.mk (s.data.map Char.toLower)

/-! ## driver/gorm.go -/

/-- The source struct `Gorm` without its database connection. -/
structure Gorm where
  query : String
  args : List Value
  limit : Int
  skip : Int
  index : String
  sorts : String
  deriving DecidableEq

/-- The function `NewGormDriver`: every field has its zero value. -/
def NewGormDriver : Gorm :=
  { query := "", args := [], limit := 0, skip := 0, index := "", sorts := "" }

/-- The body of the loop of `Gorm.Range` for one field `k` with bounds `v`. -/
def Gorm.rangeEntry (orm : Gorm) (e : RangeKey × GoMap RangeType Int) : Gorm :=
  let orm1 : Gorm :=
    match e.2.get Gte with
    | some val =>
      { orm with query := orm.query ++ ("AND `" ++ e.1 ++ "` > ? "),
                 args := orm.args ++ [Value.int val] }
    | none => orm
  match e.2.get Lte with
  | some val =>
    { orm1 with query := orm1.query ++ ("AND `" ++ e.1 ++ "` < ? "),
                args := orm1.args ++ [Value.int val] }
  | none => orm1

/-- The method `Gorm.Range`. -/
def Gorm.Range (orm : Gorm) (r : Range) : Gorm :=
  r.entries.foldl Gorm.rangeEntry orm

/-- The range map `age >= 18, age <= 30`. -/
def rangeAge : Range := Range.Add (Range.Add GoMap.empty "age" Gte 18) "age" Lte 30

/-- The configuration `New` builds over `?range=age:18`, with the alias
`age -> age`. -/
def paginationSelfAlias : Pagination :=
  (New (requestRange ["age:18"]) emptyDriver).AddFilterKeyMapping "age" "age"

/-- The configuration `New` builds over `?range=a:1&range=b:2`, with the alias
`a -> b`. -/
def paginationAliasOnto : Pagination :=
  (New (requestRange ["a:1", "b:2"]) emptyDriver).AddFilterKeyMapping "a" "b"

/-- The name of the `Driver` method a call is made on. -/
def DriverCall.name : DriverCall → String
  | DriverCall.SetTyp _ => "SetTyp"
  | DriverCall.Limit _ => "Limit"
  | DriverCall.Sort _ => "Sort"
  | DriverCall.Index _ => "Index"
  | DriverCall.Skip _ => "Skip"
  | DriverCall.Range _ => "Range"
  | DriverCall.Where _ => "Where"
  | DriverCall.Find => "Find"
  | DriverCall.Count => "Count"

/-- The calls `Find` has made on the driver when it calls the driver's `Find`,
for the range map `r` that `ParseRange` returned. -/
def Pagination.configCalls (pagination : Pagination) (structure_ : Record) (r : Range) :
    List DriverCall :=
  [DriverCall.SetTyp structure_.keys,
   DriverCall.Limit pagination.ParsingLimit,
   DriverCall.Sort (ParseSorts pagination.ctx pagination.fieldMapping),
   DriverCall.Index pagination.index,
   DriverCall.Skip (wrapInt64 (pagination.ParsingLimit * ParseSkip pagination.ctx))] ++
  [DriverCall.Range r, DriverCall.Where pagination.filter]

/-- A record with the field `ID`. -/
def recordWithID (id : Int) : Record := ⟨[("ID", Value.int id)], List.nodup_singleton "ID"⟩

/-- A driver whose table holds the records with `ID` 4, 5 and 6. -/
def threeRecordDriver : Driver :=
  { Find := fun _ => [recordWithID 4, recordWithID 5, recordWithID 6], Count := fun _ => 3 }

/-- The configuration `New` builds over the request `?page=1` and
`threeRecordDriver`, with the pagination field `ID`. -/
def paginationCursor : Pagination :=
  (New ⟨⟨[("page", ["1"])], by decide⟩⟩ threeRecordDriver).SetPaginationField "ID"

/-! ## The wording of the specification for range entries -/

/-- The characters of a range entry before its first colon; all of them when
the entry has no colon. -/
def beforeColon : List Char → List Char
  | [] => []
  | c :: cs => if c = ':' then [] else c :: beforeColon cs

/-- The characters of a range entry after its first colon; none when the entry
has no colon. -/
def afterColon : List Char → List Char
  | [] => []
  | c :: cs => if c = ':' then cs else afterColon cs

/-- The key of a range entry `key:v` or `key:v1,v2`, as the grammar reads it:
the text before the first colon. -/
def Range.grammarKey (v : String) : String := String.mk (beforeColon v.data)

/-- The value list of a range entry `key:v` or `key:v1,v2`, as the grammar
reads it: the text after the first colon. -/
def Range.grammarValue (v : String) : String := String.mk (afterColon v.data)

/-- The field a range entry names: its key without the sign. -/
def Range.grammarField (v : String) : RangeKey := Range.getKey (Range.grammarKey v)

/-! ## The wording of the specification for accumulated range entries -/

/-- The bound of type `typ` a range map holds for `field`, if any. -/
def Range.bound (r : Range) (field : RangeKey) (typ : RangeType) : Option Int :=
  match r.get field with
  | some m => m.get typ
  | none => none

/-- The bound of type `typ` that the entry `v` gives for `field`, by the rules
of the grammar: an entry gives bounds only for the field it names; one
component gives the upper bound when the key has a leading `-` and the lower
bound otherwise; two components give the smaller one as lower and the larger
one as upper bound; a component that is not an integer counts as 0. -/
def Range.entryBound (v : String) (field : RangeKey) (typ : RangeType) : Option Int :=
  if field = Range.grammarField v then
    match Split (Range.grammarValue v) with
    | [c] =>
      if HasPrefix (Range.grammarKey v) '-' then
        (if typ = Lte then some (Range.atoiOrZero c) else none)
      else (if typ = Gte then some (Range.atoiOrZero c) else none)
    | [c1, c2] =>
      if typ = Gte then some (min (Range.atoiOrZero c1) (Range.atoiOrZero c2))
      else if typ = Lte then some (max (Range.atoiOrZero c1) (Range.atoiOrZero c2))
      else none
    | _ => none
  else none

/-- The bound given by the last entry, in request order, that sets the pair
`(field, typ)`; `none` when no entry sets it. -/
def Range.lastBound : List String → RangeKey → RangeType → Option Int
  | [], _, _ => none
  | v :: vs, field, typ => (Range.lastBound vs field typ).or (Range.entryBound v field typ)

/-- The request of `requestFilter` with its parameters visited in the opposite
order. -/
def requestFilterRev : Request :=
  ⟨⟨[("empty", [""]), ("tag", ["a", "b"]), ("tenant", ["1"]), ("uid", ["7"]), ("name", ["bob"]),
     ("page", ["2"]), ("secret", ["x"])], by decide⟩⟩

/-- The receiver `paginationFilter` as `Find` returns it over the empty table:
the record type and the result are set, nothing else is changed. -/
def paginationFilterAfter : Pagination :=
  { paginationFilter with
    dataTyp := some []
    result := some { Data := [], NextID := none, PrevID := none, Count := 0, Rows := 12 } }

/-- The configuration `New` builds over `?range=a:1&range=b:2`, with the alias
`a -> x`. -/
def paginationAliasFresh : Pagination :=
  (New (requestRange ["a:1", "b:2"]) emptyDriver).AddFilterKeyMapping "a" "x"

/-- The request `?range=age:30,18&range=x:1&range=-y:7`. -/
def requestRangeDistinct : Request := requestRange ["age:30,18", "x:1", "-y:7"]

/-- The range map `Range.Parse` builds for `requestRangeDistinct`. -/
def rangeDistinct : Range :=
  Range.Add (Range.Add (Range.Add (Range.Add GoMap.empty "age" Gte 18) "age" Lte 30) "x" Gte 1)
    "y" Lte 7

/-! ## The wording of the specification for renamed range fields -/

/-- The aliases are safe for the range map `r`: the storage name of a field of
`r` is neither a field of `r` nor a key of the alias table, and no two fields
of `r` have the same storage name. -/
def Pagination.renameSafe (pagination : Pagination) (r : Range) : Prop :=
  (∀ k c, k ∈ r.keys → pagination.fieldMapping.get k = some c →
    c ∉ r.keys ∧ pagination.fieldMapping.get c = none) ∧
  (∀ k1 k2 c, k1 ∈ r.keys → k2 ∈ r.keys → pagination.fieldMapping.get k1 = some c →
    pagination.fieldMapping.get k2 = some c → k1 = k2)

/-- The state `m` of the loop of `ParseRange` over the parsed map `r` after the
keys `done` were visited, under safe aliases: the visited fields that have an
alias are stored under it and no longer under their own name, every other
field of `r` is as it was, and nothing else is in the map. -/
def Pagination.renameInv (pagination : Pagination) (r m : Range) (done : List RangeKey) :
    Prop :=
  (∀ k c v, k ∈ done → r.get k = some v → pagination.fieldMapping.get k = some c →
    m.get c = some v) ∧
  (∀ k c, k ∈ done → k ∈ r.keys → pagination.fieldMapping.get k = some c → m.get k = none) ∧
  (∀ k, k ∈ r.keys → (k ∉ done ∨ pagination.fieldMapping.get k = none) → m.get k = r.get k) ∧
  (∀ x, m.get x ≠ none →
    x ∈ r.keys ∨ ∃ k, k ∈ done ∧ k ∈ r.keys ∧ pagination.fieldMapping.get k = some x)

/-- The configuration `New` builds over `?range=a:1`, with the aliases
`a -> b` and `b -> c`. -/
def paginationAliasChain : Pagination :=
  ((New (requestRange ["a:1"]) emptyDriver).AddFilterKeyMapping "a" "b").AddFilterKeyMapping
    "b" "c"

/-- The receiver `paginationAliasFresh` as `Find` returns it over the empty
table: the record type and the result are set, nothing else is changed. -/
def paginationAliasFreshAfter : Pagination :=
  { paginationAliasFresh with
    dataTyp := some []
    result := some { Data := [], NextID := none, PrevID := none, Count := 0, Rows := 12 } }

/-! # Properties -/

/-! ## Go maps -/

namespace GoMap

variable {K V : Type} [DecidableEq K]

theorem get_empty (k : K) : (empty : GoMap K V).get k = none := rfl

theorem find_filter_ne (l : List (K × V)) {k k1 : K} (h : k1 ≠ k) :
    (l.filter (fun e => decide (e.1 ≠ k))).find? (fun e => decide (e.1 = k1)) =
      l.find? (fun e => decide (e.1 = k1)) := by
  induction l with
  | nil => rfl
  | cons e t ih =>
    by_cases hk : e.1 = k
    · have hne : ¬ e.1 = k1 := fun h1 => h (h1.symm.trans hk)
      rw [List.filter_cons_of_neg (by simpa using hk),
        List.find?_cons_of_neg _ (by simpa using hne)]
      exact ih
    · rw [List.filter_cons_of_pos (by simpa using hk)]
      by_cases h1 : e.1 = k1
      · rw [List.find?_cons_of_pos _ (by simpa using h1),
          List.find?_cons_of_pos _ (by simpa using h1)]
      · rw [List.find?_cons_of_neg _ (by simpa using h1),
          List.find?_cons_of_neg _ (by simpa using h1)]
        exact ih

theorem find_filter_self (l : List (K × V)) (k : K) :
    (l.filter (fun e => decide (e.1 ≠ k))).find? (fun e => decide (e.1 = k)) = none := by
  rw [List.find?_filter, List.find?_eq_none]
  intro e _
  simp

theorem get_set_self (m : GoMap K V) (k : K) (v : V) : (m.set k v).get k = some v := by
  simp [get, set]

theorem get_set_ne (m : GoMap K V) {k k1 : K} (v : V) (h : k1 ≠ k) :
    (m.set k v).get k1 = m.get k1 := by
  have hk : ¬ k = k1 := fun e => h e.symm
  unfold get set
  rw [List.find?_cons_of_neg _ (by simpa using hk), find_filter_ne m.entries h]

theorem get_delete_self (m : GoMap K V) (k : K) : (m.delete k).get k = none := by
  unfold get delete
  rw [find_filter_self]; rfl

theorem get_delete_ne (m : GoMap K V) {k k1 : K} (h : k1 ≠ k) :
    (m.delete k).get k1 = m.get k1 := by
  unfold get delete
  rw [find_filter_ne m.entries h]

theorem get_delete_eq_none (m : GoMap K V) (k k1 : K) (h : m.get k1 = none) :
    (m.delete k).get k1 = none := by
  by_cases hk : k1 = k
  · rw [hk]; exact get_delete_self m k
  · rw [get_delete_ne m hk]; exact h

theorem find_eq_none_of_not_mem (l : List (K × V)) (k : K) (h : k ∉ l.map Prod.fst) :
    l.find? (fun e => decide (e.1 = k)) = none := by
  induction l with
  | nil => rfl
  | cons e t ih =>
    have h1 : ¬ e.1 = k := fun he => h (by simp [he])
    have h2 : k ∉ t.map Prod.fst := fun hm => h (by simp at hm ⊢; exact Or.inr hm)
    simp [List.find?_cons, h1, ih h2]

theorem find_of_mem (l : List (K × V)) (hn : (l.map Prod.fst).Nodup) (k : K) (v : V)
    (h : (k, v) ∈ l) : l.find? (fun e => decide (e.1 = k)) = some (k, v) := by
  induction l with
  | nil => cases h
  | cons e t ih =>
    rw [List.map_cons, List.nodup_cons] at hn
    rcases List.mem_cons.mp h with he | ht
    · subst he; simp [List.find?_cons]
    · have h1 : ¬ e.1 = k := by
        intro he
        apply hn.1
        rw [he]
        exact List.mem_map_of_mem Prod.fst ht
      simp [List.find?_cons, h1, ih hn.2 ht]

theorem get_of_mem (m : GoMap K V) (k : K) (v : V) (h : (k, v) ∈ m.entries) :
    m.get k = some v := by
  simp [get, find_of_mem m.entries m.nodup k v h]

theorem mem_of_get (m : GoMap K V) (k : K) (v : V) (h : m.get k = some v) :
    (k, v) ∈ m.entries := by
  unfold get at h
  cases hf : m.entries.find? (fun e => decide (e.1 = k)) with
  | none => rw [hf] at h; cases h
  | some e =>
    rw [hf] at h
    have h1 := List.find?_some hf
    have h2 := List.mem_of_find?_eq_some hf
    simp at h h1
    have : e = (k, v) := Prod.ext h1 h
    rw [← this]; exact h2

theorem get_eq_none_of_not_mem (m : GoMap K V) (k : K) (h : k ∉ m.keys) : m.get k = none := by
  simp [get, find_eq_none_of_not_mem m.entries k h]

theorem not_mem_keys_of_get (m : GoMap K V) (k : K) (h : m.get k = none) : k ∉ m.keys := by
  intro hk
  obtain ⟨e, he, hke⟩ := List.mem_map.mp hk
  have := get_of_mem m k e.2 (by rw [← hke]; exact he)
  rw [h] at this; cases this

end GoMap

/-! ## The driver calls of `Find` -/

theorem Find_calls_start (p : Pagination) (s : Record) (visit : Range → List RangeKey) : ∃ rest,
    (p.Find s visit).calls =
      [DriverCall.SetTyp s.keys,
       DriverCall.Limit p.ParsingLimit,
       DriverCall.Sort (ParseSorts p.ctx p.fieldMapping),
       DriverCall.Index p.index,
       DriverCall.Skip (wrapInt64 (p.ParsingLimit * ParseSkip p.ctx))] ++ rest := by
  unfold Pagination.Find
  cases p.ParseRange visit with
  | none => exact ⟨[], rfl⟩
  | some r =>
    dsimp only
    split
    · split
      · exact ⟨_, rfl⟩
      · exact ⟨_, rfl⟩
    · exact ⟨_, rfl⟩

theorem Find_calls_of_range (p : Pagination) (s : Record) (visit : Range → List RangeKey) (r : Range)
    (h : p.ParseRange visit = some r) :
    (p.Find s visit).calls =
      [DriverCall.SetTyp s.keys,
       DriverCall.Limit p.ParsingLimit,
       DriverCall.Sort (ParseSorts p.ctx p.fieldMapping),
       DriverCall.Index p.index,
       DriverCall.Skip (wrapInt64 (p.ParsingLimit * ParseSkip p.ctx)),
       DriverCall.Range r,
       DriverCall.Where p.filter,
       DriverCall.Find,
       DriverCall.Count] := by
  unfold Pagination.Find
  rw [h]
  dsimp only
  split
  · split <;> rfl
  · rfl

theorem Find_calls_of_panic (p : Pagination) (s : Record) (visit : Range → List RangeKey) (h : p.ParseRange visit = none) :
    (p.Find s visit).calls =
      [DriverCall.SetTyp s.keys,
       DriverCall.Limit p.ParsingLimit,
       DriverCall.Sort (ParseSorts p.ctx p.fieldMapping),
       DriverCall.Index p.index,
       DriverCall.Skip (wrapInt64 (p.ParsingLimit * ParseSkip p.ctx))] := by
  unfold Pagination.Find
  rw [h]

theorem Find_skipArg (p : Pagination) (s : Record) (visit : Range → List RangeKey) :
    (p.Find s visit).skipArg = some (wrapInt64 (p.ParsingLimit * ParseSkip p.ctx)) := by
  obtain ⟨rest, h⟩ := Find_calls_start p s visit
  unfold FindRun.skipArg
  rw [h]
  rfl

theorem Find_limitArg (p : Pagination) (s : Record) (visit : Range → List RangeKey) :
    (p.Find s visit).limitArg = some p.ParsingLimit := by
  obtain ⟨rest, h⟩ := Find_calls_start p s visit
  unfold FindRun.limitArg
  rw [h]
  rfl

theorem Find_sortArg (p : Pagination) (s : Record) (visit : Range → List RangeKey) :
    (p.Find s visit).sortArg = some (ParseSorts p.ctx p.fieldMapping) := by
  obtain ⟨rest, h⟩ := Find_calls_start p s visit
  unfold FindRun.sortArg
  rw [h]
  rfl

theorem Find_rangeArg (p : Pagination) (s : Record) (visit : Range → List RangeKey) :
    (p.Find s visit).rangeArg = p.ParseRange visit := by
  cases h : p.ParseRange visit with
  | none =>
    unfold FindRun.rangeArg
    rw [Find_calls_of_panic p s visit h]
    rfl
  | some r =>
    unfold FindRun.rangeArg
    rw [Find_calls_of_range p s visit r h]
    rfl

theorem Find_whereArg (p : Pagination) (s : Record) (visit : Range → List RangeKey) :
    (p.Find s visit).whereArg = (p.ParseRange visit).map (fun _ => p.filter) := by
  cases h : p.ParseRange visit with
  | none =>
    unfold FindRun.whereArg
    rw [Find_calls_of_panic p s visit h]
    rfl
  | some r =>
    unfold FindRun.whereArg
    rw [Find_calls_of_range p s visit r h]
    rfl

theorem Find_whereArg_eq (p : Pagination) (s : Record) (visit : Range → List RangeKey) (w : pager.Where)
    (h : (p.Find s visit).whereArg = some w) : w = p.filter := by
  rw [Find_whereArg] at h
  cases hr : p.ParseRange visit with
  | none => rw [hr] at h; cases h
  | some r => rw [hr] at h; exact (Option.some.inj h).symm

/-! ## The filter map -/

theorem foldl_delete_get_none (l : List String) (w : pager.Where) (k : String)
    (h : w.get k = none) : (l.foldl (fun w column => w.delete column) w).get k = none := by
  induction l generalizing w with
  | nil => exact h
  | cons c t ih => exact ih (w.delete c) (GoMap.get_delete_eq_none w c k h)

theorem foldl_delete_get_of_mem (l : List String) (w : pager.Where) (k : String)
    (h : k ∈ l) : (l.foldl (fun w column => w.delete column) w).get k = none := by
  induction l generalizing w with
  | nil => cases h
  | cons c t ih =>
    rcases List.mem_cons.mp h with hc | ht
    · subst hc
      exact foldl_delete_get_none t (w.delete k) k (GoMap.get_delete_self w k)
    · exact ih (w.delete c) ht

theorem foldl_delete_get_of_not_mem (l : List String) (w : pager.Where) (k : String)
    (h : k ∉ l) : (l.foldl (fun w column => w.delete column) w).get k = w.get k := by
  induction l generalizing w with
  | nil => rfl
  | cons c t ih =>
    have hc : k ≠ c := fun e => h (by rw [e]; exact List.mem_cons_self c t)
    have ht : k ∉ t := fun e => h (List.mem_cons_of_mem c e)
    rw [List.foldl_cons, ih (w.delete c) ht, GoMap.get_delete_ne w hc]

theorem reserved_iff (fk : FilterKey) (k : String) :
    fk.reserved k = true ↔ (k = fk.Page ∨ k = fk.Rows ∨ k = fk.Sorts ∨ k = fk.Range) := by
  unfold FilterKey.reserved
  simp only [Bool.or_eq_true, decide_eq_true_eq]
  tauto

theorem mergeWhere_get_reserved (p : Pagination) (w : pager.Where) (k : String)
    (h : p.filterKey.reserved k = true) : (p.mergeWhere w).get k = none := by
  unfold Pagination.mergeWhere
  rcases (reserved_iff p.filterKey k).mp h with h1 | h1 | h1 | h1 <;> subst h1
  · exact GoMap.get_delete_eq_none _ _ _ (GoMap.get_delete_self _ _)
  · exact GoMap.get_delete_eq_none _ _ _ (GoMap.get_delete_eq_none _ _ _
      (GoMap.get_delete_eq_none _ _ _ (GoMap.get_delete_self _ _)))
  · exact GoMap.get_delete_eq_none _ _ _ (GoMap.get_delete_eq_none _ _ _
      (GoMap.get_delete_self _ _))
  · exact GoMap.get_delete_self _ _

theorem mergeWhere_get_of_not_reserved (p : Pagination) (w : pager.Where) (k : String)
    (h : p.filterKey.reserved k = false) :
    (p.mergeWhere w).get k = (p.defaultWhere.entries.foldl p.mergeEntry w).get k := by
  have hn : ¬ (k = p.filterKey.Page ∨ k = p.filterKey.Rows ∨ k = p.filterKey.Sorts ∨
      k = p.filterKey.Range) := by
    rw [← reserved_iff, h]; simp
  unfold Pagination.mergeWhere
  rw [GoMap.get_delete_ne _ (fun e => hn (Or.inr (Or.inr (Or.inr e)))),
    GoMap.get_delete_ne _ (fun e => hn (Or.inl e)),
    GoMap.get_delete_ne _ (fun e => hn (Or.inr (Or.inr (Or.inl e)))),
    GoMap.get_delete_ne _ (fun e => hn (Or.inr (Or.inl e)))]

theorem foldl_mergeEntry_get_of_not_mem (p : Pagination) (l : List (String × Value))
    (w : pager.Where) (k : String) (h : k ∉ l.map Prod.fst) :
    (l.foldl p.mergeEntry w).get k = w.get k := by
  induction l generalizing w with
  | nil => rfl
  | cons e t ih =>
    have he : k ≠ e.1 := fun h1 => h (by rw [h1]; simp)
    have ht : k ∉ t.map Prod.fst := fun h1 => h (by simp at h1 ⊢; exact Or.inr h1)
    rw [List.foldl_cons, ih _ ht]
    unfold Pagination.mergeEntry
    split
    · rfl
    · exact GoMap.get_set_ne w e.2 he

theorem foldl_mergeEntry_get_of_mem (p : Pagination) (l : List (String × Value))
    (hn : (l.map Prod.fst).Nodup) (w : pager.Where) (k : String) (v : Value)
    (h : (k, v) ∈ l) (hr : p.filterKey.reserved k = false) :
    (l.foldl p.mergeEntry w).get k = some v := by
  induction l generalizing w with
  | nil => cases h
  | cons e t ih =>
    rw [List.map_cons, List.nodup_cons] at hn
    rcases List.mem_cons.mp h with he | ht
    · subst he
      rw [List.foldl_cons, foldl_mergeEntry_get_of_not_mem p t _ k hn.1]
      unfold Pagination.mergeEntry
      rw [if_neg (by simp [hr])]
      exact GoMap.get_set_self w k v
    · rw [List.foldl_cons]
      exact ih hn.2 _ ht

theorem filter_get_of_not_disabled (p : Pagination) (k : String)
    (hd : k ∉ p.disabledField) (hr : p.filterKey.reserved k = false) :
    p.filter.get k = (p.defaultWhere.entries.foldl p.mergeEntry p.ParsingQuery).get k := by
  unfold Pagination.filter
  rw [foldl_delete_get_of_not_mem _ _ k hd, mergeWhere_get_of_not_reserved p _ k hr]

/-! ## The rename loop of `ParseRange` -/

theorem renameEntry_of_absent (p : Pagination) (r : Range) (k : RangeKey)
    (h : r.get k = none) : p.renameEntry r k = r := by
  unfold Pagination.renameEntry
  rw [h]

theorem renameEntry_of_no_alias (p : Pagination) (r : Range) (k : RangeKey)
    (h : p.fieldMapping.get k = none) : p.renameEntry r k = r := by
  unfold Pagination.renameEntry
  rw [h]
  cases r.get k <;> rfl

theorem renameEntries_of_absent (p : Pagination) (r : Range) (l : List RangeKey)
    (h : ∀ k ∈ l, r.get k = none) : p.renameEntries r l = r := by
  induction l with
  | nil => rfl
  | cons k t ih =>
    show p.renameEntries (p.renameEntry r k) t = r
    rw [renameEntry_of_absent p r k (h k (List.mem_cons_self k t))]
    exact ih (fun k1 h1 => h k1 (List.mem_cons_of_mem k h1))

theorem renameEntries_of_no_alias (p : Pagination) (r : Range) (l : List RangeKey)
    (h : ∀ k ∈ l, p.fieldMapping.get k = none) : p.renameEntries r l = r := by
  induction l with
  | nil => rfl
  | cons k t ih =>
    show p.renameEntries (p.renameEntry r k) t = r
    rw [renameEntry_of_no_alias p r k (h k (List.mem_cons_self k t))]
    exact ih (fun k1 h1 => h k1 (List.mem_cons_of_mem k h1))

theorem ParseRange_of_no_alias (p : Pagination) (visit : Range → List RangeKey)
    (h : ∀ k, p.fieldMapping.get k = none) :
    p.ParseRange visit = Range.Parse GoMap.empty p.ctx := by
  unfold Pagination.ParseRange
  cases Range.Parse GoMap.empty p.ctx with
  | none => rfl
  | some r =>
    show some (p.renameEntries r (visit r)) = some r
    rw [renameEntries_of_no_alias p r (visit r) (fun k _ => h k)]

/-! ## Page size and skip offset -/

theorem ParseSkip_of_page (request : Request) (page : Int)
    (h : Atoi (request.Get "page") = some page) (h0 : page ≠ 0) :
    ParseSkip request = wrapInt64 (page - 1) := by
  unfold ParseSkip
  rw [h]
  simp [h0]

theorem ParseSkip_of_error (request : Request) (h : Atoi (request.Get "page") = none) :
    ParseSkip request = 0 := by
  unfold ParseSkip
  rw [h]

theorem ParsingLimit_of_rows (p : Pagination) (limit : Int)
    (h : Atoi (p.ctx.Get p.filterKey.Rows) = some limit) (h0 : limit ≠ 0) :
    p.ParsingLimit = limit := by
  unfold Pagination.ParsingLimit
  rw [h]
  simp [h0]

theorem ParsingLimit_of_error (p : Pagination)
    (h : Atoi (p.ctx.Get p.filterKey.Rows) = none) : p.ParsingLimit = p.defaultLimit := by
  unfold Pagination.ParsingLimit
  rw [h]

/-- C1, the code at the failing input: for the request `?page=-1` under the
configuration `New` builds (default page size 12), `Find` passes `Limit(12)` and
`Skip(-24)` to the driver; the claim asks for skip 0 when the page is a
negative integer. -/
theorem C1_Find_skip_negative_page (driver : Driver) (s : Record) (visit : Range → List RangeKey) :
    ((New requestNegativePage driver).Find s visit).limitArg = some 12 ∧
    ((New requestNegativePage driver).Find s visit).skipArg = some (-24) := by
  rw [Find_limitArg, Find_skipArg]
  exact ⟨rfl, rfl⟩

/-- C2, the code at the failing input: for the request `?rows=-5` and the
positive default 12, `ParsingLimit` returns -5 and `Find` passes `Limit(-5)` to
the driver; the claim asks for the default, a positive integer. -/
theorem C2_ParsingLimit_negative_rows (driver : Driver) (s : Record) (visit : Range → List RangeKey) :
    (New requestNegativeRows driver).defaultLimit = 12 ∧
    (New requestNegativeRows driver).ParsingLimit = -5 ∧
    ((New requestNegativeRows driver).Find s visit).limitArg = some (-5) := by
  rw [Find_limitArg]
  exact ⟨rfl, rfl, rfl⟩

/-- C3: whatever the request, the defaults, the alias table, the disabled
fields and the control-parameter names are, the filter map `Find` passes to
the driver's `Where` has no key that is a disabled field and no key equal to
one of the four configured control-parameter names. -/
theorem C3_filter_has_no_disabled_or_control_key (p : Pagination) (s : Record) (visit : Range → List RangeKey)
    (w : pager.Where) (k : String) (hw : (p.Find s visit).whereArg = some w)
    (hk : k ∈ p.disabledField ∨ k = p.filterKey.Page ∨ k = p.filterKey.Rows ∨
      k = p.filterKey.Sorts ∨ k = p.filterKey.Range) :
    k ∉ w.keys ∧ w.get k = none := by
  have hget : w.get k = none := by
    rw [Find_whereArg_eq p s visit w hw]
    unfold Pagination.filter
    rcases hk with hd | hc
    · exact foldl_delete_get_of_mem _ _ k hd
    · exact foldl_delete_get_none _ _ k
        (mergeWhere_get_reserved p _ k ((reserved_iff p.filterKey k).mpr hc))
  exact ⟨GoMap.not_mem_keys_of_get w k hget, hget⟩

/-- C3, witness: the configuration `paginationFilter` disables `secret`, which
both the request and the defaults supply. -/
theorem C3_witness :
    (paginationFilter.Find GoMap.empty GoMap.keys).whereArg = some paginationFilter.filter ∧
    "secret" ∈ paginationFilter.disabledField ∧
    ("secret" ∉ paginationFilter.filter.keys ∧ paginationFilter.filter.get "secret" = none) :=
  ⟨by decide, by decide,
    C3_filter_has_no_disabled_or_control_key paginationFilter GoMap.empty GoMap.keys paginationFilter.filter
      "secret" (by decide) (Or.inl (by decide))⟩

/-- C4: a key of the configured default filter map that is neither a
control-parameter name nor a disabled field is mapped, in the filter passed to
the driver's `Where`, to the value the default map gives it, whatever the
request supplies for that key directly or through an alias. -/
theorem C4_default_wins (p : Pagination) (s : Record) (visit : Range → List RangeKey) (w : pager.Where) (k : String)
    (v : Value) (hw : (p.Find s visit).whereArg = some w)
    (hdef : p.defaultWhere.get k = some v)
    (hc : ¬ (k = p.filterKey.Page ∨ k = p.filterKey.Rows ∨ k = p.filterKey.Sorts ∨
      k = p.filterKey.Range))
    (hd : k ∉ p.disabledField) :
    w.get k = some v := by
  have hr : p.filterKey.reserved k = false := by
    cases h : p.filterKey.reserved k with
    | false => rfl
    | true => exact absurd ((reserved_iff p.filterKey k).mp h) hc
  rw [Find_whereArg_eq p s visit w hw, filter_get_of_not_disabled p k hd hr]
  exact foldl_mergeEntry_get_of_mem p _ p.defaultWhere.nodup _ k v
    (GoMap.mem_of_get p.defaultWhere k v hdef) hr

/-- C4, witness: the request of `paginationFilter` supplies `tenant=1`, the
defaults map `tenant` to 7. -/
theorem C4_witness :
    requestFilter.query.get "tenant" = some ["1"] ∧
    paginationFilter.filter.get "tenant" = some (Value.int 7) :=
  ⟨by decide,
    C4_default_wins paginationFilter GoMap.empty GoMap.keys paginationFilter.filter "tenant" (Value.int 7)
      (by decide) (by decide) (by decide) (by decide)⟩

/-- C10, the code at the failing input: with the control parameters renamed to
`p`, `n`, `o`, `r` by `SetFilterKey`, the request `?p=3&n=10&o=-a&r=age:18`
gives `Limit(10)` (the rows name is honoured) but `Skip(0)`, an empty sort list
and an empty range map, while the same values under the names `page`, `sorts`
and `range` give `Skip(20)`, the sort list `[(a, Desc)]` and the range
`age >= 18`: `Find` reads the page, the sorts and the range under their
default names, not the configured ones. With only the page name renamed, the
request `?p=3&rows=10` gives `Skip(0)`. -/
theorem C10_Find_ignores_renamed_keys (driver : Driver) (s : Record) (visit : Range → List RangeKey) :
    (((New requestRenamed driver).SetFilterKey renamedKeys).Find s visit).limitArg = some 10 ∧
    (((New requestRenamed driver).SetFilterKey renamedKeys).Find s visit).skipArg = some 0 ∧
    (((New requestRenamed driver).SetFilterKey renamedKeys).Find s visit).sortArg = some [] ∧
    (((New requestRenamed driver).SetFilterKey renamedKeys).Find s visit).rangeArg =
      some GoMap.empty ∧
    (((New requestDefaultNames driver).SetFilterKey renamedKeys).Find s visit).skipArg = some 20 ∧
    (((New requestDefaultNames driver).SetFilterKey renamedKeys).Find s visit).sortArg =
      some [{ Key := "a", Dir := Desc }] ∧
    ((((New requestDefaultNames driver).SetFilterKey renamedKeys).Find s visit).rangeArg.map
      (fun r => (r.get "age").map (fun m => m.get Gte))) = some (some (some 18)) ∧
    (((New requestRenamedPage driver).SetFilterKey
      { Page := "p", Rows := "rows", Sorts := "sorts", Range := "range" }).Find s visit).skipArg =
      some 0 := by
  simp only [Find_limitArg, Find_skipArg, Find_sortArg, Find_rangeArg]
  rw [ParseRange_of_no_alias ((New requestRenamed driver).SetFilterKey renamedKeys) visit
      (fun _ => rfl),
    ParseRange_of_no_alias ((New requestDefaultNames driver).SetFilterKey renamedKeys) visit
      (fun _ => rfl)]
  exact ⟨rfl, rfl, rfl, rfl, rfl, rfl, rfl, rfl⟩

theorem queryEntry_get_of_ne (p : Pagination) (w : pager.Where) (e : String × List String)
    (k : String) (h : mapped p.fieldMapping e.1 ≠ k) :
    (p.queryEntry w e).get k = w.get k := by
  unfold Pagination.queryEntry
  split
  · rfl
  · split
    · exact GoMap.get_set_ne w _ (Ne.symm h)
    · rfl
  · exact GoMap.get_set_ne w _ (Ne.symm h)

theorem foldl_queryEntry_get_of_ne (p : Pagination) (l : List (String × List String))
    (w : pager.Where) (k : String) (h : ∀ e ∈ l, mapped p.fieldMapping e.1 ≠ k) :
    (l.foldl p.queryEntry w).get k = w.get k := by
  induction l generalizing w with
  | nil => rfl
  | cons e t ih =>
    rw [List.foldl_cons, ih _ (fun e1 h1 => h e1 (List.mem_cons_of_mem e h1)),
      queryEntry_get_of_ne p w e k (h e (List.mem_cons_self e t))]

theorem queryEntry_get_self (p : Pagination) (w : pager.Where) (f : String)
    (vals : List String) (hw : w.get (mapped p.fieldMapping f) = none) :
    (∀ v, vals = [v] → v ≠ "" →
      (p.queryEntry w (f, vals)).get (mapped p.fieldMapping f) = some (Value.str v)) ∧
    (vals = [""] → (p.queryEntry w (f, vals)).get (mapped p.fieldMapping f) = none) ∧
    (2 ≤ vals.length →
      (p.queryEntry w (f, vals)).get (mapped p.fieldMapping f) = some (Value.strs vals)) := by
  refine ⟨?_, ?_, ?_⟩
  · intro v hv hne
    subst hv
    unfold Pagination.queryEntry
    simp only [hne, ne_eq, not_false_eq_true, if_true]
    exact GoMap.get_set_self w _ _
  · intro hv
    subst hv
    unfold Pagination.queryEntry
    simp only [ne_eq, not_true_eq_false, if_false]
    exact hw
  · intro hlen
    match vals, hlen with
    | v0 :: v1 :: vs, _ =>
      unfold Pagination.queryEntry
      exact GoMap.get_set_self w _ _

theorem foldl_queryEntry_get_unique (p : Pagination) (l : List (String × List String))
    (hn : (l.map Prod.fst).Nodup) (w : pager.Where) (f : String) (vals : List String)
    (hmem : (f, vals) ∈ l)
    (huniq : ∀ e ∈ l, mapped p.fieldMapping e.1 = mapped p.fieldMapping f → e.1 = f) :
    (l.foldl p.queryEntry w).get (mapped p.fieldMapping f) =
      (p.queryEntry w (f, vals)).get (mapped p.fieldMapping f) := by
  induction l generalizing w with
  | nil => cases hmem
  | cons e t ih =>
    rw [List.map_cons, List.nodup_cons] at hn
    rw [List.foldl_cons]
    rcases List.mem_cons.mp hmem with he | ht
    · subst he
      apply foldl_queryEntry_get_of_ne
      intro e1 h1 heq
      have hf := huniq e1 (List.mem_cons_of_mem _ h1) heq
      have hm : e1.1 ∈ t.map Prod.fst := List.mem_map_of_mem Prod.fst h1
      rw [hf] at hm
      exact hn.1 hm
    · have hne : mapped p.fieldMapping e.1 ≠ mapped p.fieldMapping f := by
        intro heq
        have hf := huniq e (List.mem_cons_self e t) heq
        have hm : (f, vals).1 ∈ t.map Prod.fst := List.mem_map_of_mem Prod.fst ht
        exact hn.1 (hf ▸ hm)
      rw [ih hn.2 _ ht (fun e1 h1 => huniq e1 (List.mem_cons_of_mem e h1))]
      have h1 : (p.queryEntry w e).get (mapped p.fieldMapping f) =
          w.get (mapped p.fieldMapping f) := queryEntry_get_of_ne p w e _ hne
      unfold Pagination.queryEntry at h1 ⊢
      split
      · exact h1
      · split
        · rw [GoMap.get_set_self, GoMap.get_set_self]
        · exact h1
      · rw [GoMap.get_set_self, GoMap.get_set_self]

/-- C5, counterexample: with the alias `uid -> user_id` and the request
`?uid=1&user_id=2`, the parameter `uid` occurs once with the value `1` and its
storage name `user_id` is not disabled, not a control-parameter name and not a
default key, yet when `uid` is visited first the filter passed to the driver has
`user_id = 2`; when `user_id` is visited first the filter has `user_id = 1`,
which is not the value `2` of the parameter `user_id`. -/
theorem C5_counterexample :
    (requestAliasClash.query.get "uid" = some ["1"] ∧
      mapped (paginationAlias requestAliasClash).fieldMapping "uid" = "user_id" ∧
      "user_id" ∉ (paginationAlias requestAliasClash).disabledField ∧
      (paginationAlias requestAliasClash).filterKey.reserved "user_id" = false ∧
      (paginationAlias requestAliasClash).defaultWhere.get "user_id" = none ∧
      ((paginationAlias requestAliasClash).Find GoMap.empty GoMap.keys).whereArg.map
        (fun w => w.get "user_id") = some (some (Value.str "2"))) ∧
    (requestAliasClashRev.query.get "user_id" = some ["2"] ∧
      mapped (paginationAlias requestAliasClashRev).fieldMapping "user_id" = "user_id" ∧
      ((paginationAlias requestAliasClashRev).Find GoMap.empty GoMap.keys).whereArg.map
        (fun w => w.get "user_id") = some (some (Value.str "1"))) := by
  decide

/-- C5, amended: let `f` be a request parameter whose storage name `k` (its
alias when it has one, `f` otherwise) is not disabled, not a control-parameter
name and not a key of the default filter map, and let no other parameter of
the request have the storage name `k`. Then, in the filter passed to the
driver's `Where`: when `f` occurs once with a non-empty value `v`, `k` is
mapped to `v`; when `f` occurs once with the empty string, `k` is absent; when
`f` occurs more than once, `k` is mapped to the list of the values of `f` in
request order. -/
theorem C5_request_value_reaches_filter (p : Pagination) (s : Record) (visit : Range → List RangeKey) (w : pager.Where)
    (f : String) (vals : List String)
    (hw : (p.Find s visit).whereArg = some w)
    (hf : p.ctx.query.get f = some vals)
    (hd : mapped p.fieldMapping f ∉ p.disabledField)
    (hc : ¬ (mapped p.fieldMapping f = p.filterKey.Page ∨
      mapped p.fieldMapping f = p.filterKey.Rows ∨
      mapped p.fieldMapping f = p.filterKey.Sorts ∨
      mapped p.fieldMapping f = p.filterKey.Range))
    (hdef : p.defaultWhere.get (mapped p.fieldMapping f) = none)
    (huniq : ∀ f1 ∈ p.ctx.query.keys,
      mapped p.fieldMapping f1 = mapped p.fieldMapping f → f1 = f) :
    (∀ v, vals = [v] → v ≠ "" → w.get (mapped p.fieldMapping f) = some (Value.str v)) ∧
    (vals = [""] → w.get (mapped p.fieldMapping f) = none) ∧
    (2 ≤ vals.length → w.get (mapped p.fieldMapping f) = some (Value.strs vals)) := by
  have hr : p.filterKey.reserved (mapped p.fieldMapping f) = false := by
    cases h : p.filterKey.reserved (mapped p.fieldMapping f) with
    | false => rfl
    | true => exact absurd ((reserved_iff p.filterKey _).mp h) hc
  have hq : w.get (mapped p.fieldMapping f) =
      (p.queryEntry GoMap.empty (f, vals)).get (mapped p.fieldMapping f) := by
    rw [Find_whereArg_eq p s visit w hw, filter_get_of_not_disabled p _ hd hr,
      foldl_mergeEntry_get_of_not_mem p _ _ _
        (GoMap.not_mem_keys_of_get p.defaultWhere _ hdef)]
    unfold Pagination.ParsingQuery
    exact foldl_queryEntry_get_unique p _ p.ctx.query.nodup _ f vals
      (GoMap.mem_of_get p.ctx.query f vals hf)
      (fun e he => huniq e.1 (List.mem_map_of_mem Prod.fst he))
  rw [hq]
  exact queryEntry_get_self p GoMap.empty f vals (GoMap.get_empty _)

/-- C5, witness: in the request `requestFilter` the parameter `name` occurs
once with the value `bob`, and no other parameter is stored under `name`. -/
theorem C5_witness :
    paginationFilter.ctx.query.get "name" = some ["bob"] ∧
    paginationFilter.filter.get "name" = some (Value.str "bob") :=
  ⟨by decide,
    (C5_request_value_reaches_filter paginationFilter GoMap.empty GoMap.keys paginationFilter.filter
      "name" ["bob"] (by decide) (by decide) (by decide) (by decide) (by decide)
      (by decide)).1 "bob" rfl (by decide)⟩

/-! ## Splitting at commas -/

theorem splitChars_ne_nil (sep : Char) (l : List Char) : splitChars sep l ≠ [] := by
  cases l with
  | nil => simp [splitChars]
  | cons c cs =>
    unfold splitChars
    split
    · simp
    · split <;> simp

theorem splitChars_of_not_mem (sep : Char) (l : List Char) (h : sep ∉ l) :
    splitChars sep l = [l] := by
  induction l with
  | nil => rfl
  | cons c cs ih =>
    have hc : ¬ c = sep := fun e => h (by rw [e]; exact List.mem_cons_self sep cs)
    have hcs : sep ∉ cs := fun e => h (List.mem_cons_of_mem c e)
    unfold splitChars
    rw [if_neg hc, ih hcs]

theorem splitChars_append_sep (sep : Char) (a b : List Char) (h : sep ∉ a) :
    splitChars sep (a ++ sep :: b) = a :: splitChars sep b := by
  induction a with
  | nil =>
    show splitChars sep (sep :: b) = [] :: splitChars sep b
    rw [splitChars, if_pos rfl]
  | cons c cs ih =>
    have hc : ¬ c = sep := fun e => h (by rw [e]; exact List.mem_cons_self sep cs)
    have hcs : sep ∉ cs := fun e => h (List.mem_cons_of_mem c e)
    show splitChars sep (c :: (cs ++ sep :: b)) = (c :: cs) :: splitChars sep b
    rw [splitChars, if_neg hc, ih hcs]

theorem splitChars_joinChars (sep : Char) (ls : List (List Char)) (hne : ls ≠ [])
    (h : ∀ l ∈ ls, sep ∉ l) : splitChars sep (joinChars sep ls) = ls := by
  induction ls with
  | nil => exact absurd rfl hne
  | cons a t ih =>
    cases t with
    | nil => exact splitChars_of_not_mem sep a (h a (List.mem_cons_self a []))
    | cons b t1 =>
      show splitChars sep (a ++ sep :: joinChars sep (b :: t1)) = a :: b :: t1
      rw [splitChars_append_sep sep a _ (h a (List.mem_cons_self a _)),
        ih (List.cons_ne_nil b t1) (fun l hl => h l (List.mem_cons_of_mem a hl))]

theorem Split_Join (cs : List String) (hne : cs ≠ []) (h : ∀ c ∈ cs, ',' ∉ c.data) :
    Split (Join cs) = cs := by
  unfold Split Join
  rw [splitChars_joinChars ',' (cs.map String.data) (by simpa using hne)
    (by
      intro l hl
      obtain ⟨c, hc, rfl⟩ := List.mem_map.mp hl
      exact h c hc)]
  rw [List.map_map]
  exact List.map_id cs


theorem joinChars_cons_cons (sep c : Char) (h : List Char) (t : List (List Char)) :
    joinChars sep ((c :: h) :: t) = c :: joinChars sep (h :: t) := by
  cases t <;> rfl

theorem joinChars_splitChars (sep : Char) (l : List Char) :
    joinChars sep (splitChars sep l) = l := by
  induction l with
  | nil => rfl
  | cons c cs ih =>
    rw [splitChars]
    by_cases hc : c = sep
    · rw [if_pos hc]
      cases hs : splitChars sep cs with
      | nil => exact absurd hs (splitChars_ne_nil sep cs)
      | cons b t =>
        rw [hs] at ih
        show [] ++ sep :: joinChars sep (b :: t) = c :: cs
        rw [ih, hc]
        rfl
    · rw [if_neg hc]
      cases hs : splitChars sep cs with
      | nil => exact absurd hs (splitChars_ne_nil sep cs)
      | cons b t =>
        rw [hs] at ih
        show joinChars sep ((c :: b) :: t) = c :: cs
        rw [joinChars_cons_cons, ih]

theorem not_mem_of_mem_splitChars (sep : Char) (l p : List Char)
    (h : p ∈ splitChars sep l) : sep ∉ p := by
  induction l generalizing p with
  | nil =>
    rw [splitChars] at h
    rw [List.mem_singleton.mp h]
    exact List.not_mem_nil sep
  | cons c cs ih =>
    rw [splitChars] at h
    by_cases hc : c = sep
    · rw [if_pos hc] at h
      rcases List.mem_cons.mp h with h1 | h1
      · rw [h1]; exact List.not_mem_nil sep
      · exact ih p h1
    · rw [if_neg hc] at h
      cases hs : splitChars sep cs with
      | nil => exact absurd hs (splitChars_ne_nil sep cs)
      | cons b t =>
        rw [hs] at h ih
        rcases List.mem_cons.mp h with h1 | h1
        · rw [h1]
          intro hm
          rcases List.mem_cons.mp hm with h2 | h2
          · exact hc h2.symm
          · exact ih b (List.mem_cons_self b t) h2
        · exact ih p (List.mem_cons_of_mem b h1)

theorem Join_Split (s : String) : Join (Split s) = s := by
  unfold Join Split
  rw [List.map_map]
  have : (String.data ∘ String.mk) = id := rfl
  rw [this, List.map_id, joinChars_splitChars]

theorem Split_ne_nil (s : String) : Split s ≠ [] := by
  unfold Split
  intro h
  exact splitChars_ne_nil ',' s.data (List.map_eq_nil_iff.mp h)

theorem not_mem_of_mem_Split (s c : String) (h : c ∈ Split s) : ',' ∉ c.data := by
  unfold Split at h
  obtain ⟨p, hp, rfl⟩ := List.mem_map.mp h
  exact not_mem_of_mem_splitChars ',' s.data p hp

/-! ## Sort components -/

theorem mapped_eq_aliasOf (m : GoMap String String) (name : String) :
    mapped m name = aliasOf m name := by
  unfold mapped aliasOf
  cases m.get name <;> rfl

theorem sortEntry_eq_spec (m : GoMap String String) (c : String) :
    sortEntry m c = sortEntrySpec m c := by
  unfold sortEntry sortEntrySpec HasPrefix TrimPrefix
  cases hc : c.data with
  | nil => simp [mapped_eq_aliasOf]
  | cons d ds =>
    by_cases h1 : d = '-'
    · simp [h1, mapped_eq_aliasOf]
    · by_cases h2 : d = '+'
      · simp [h2, mapped_eq_aliasOf]
      · simp [h1, h2, mapped_eq_aliasOf]

/-- C9: when the `sorts` value is not empty and its comma-separated components
are `cs`, `ParseSorts` returns exactly one entry per component, in order and
with duplicates kept; the entry of a component is the one the specification
gives (`sortEntrySpec`: a leading `-` gives descending, anything else
ascending, the name loses its leading `-` or `+` and is replaced by its
alias). Every `sorts` value has such a list of components. An empty or missing
`sorts` parameter gives the empty list. -/
theorem C9_ParseSorts_one_entry_per_component (request : Request)
    (filterMapping : GoMap String String) :
    (∀ cs : List String, cs ≠ [] → (∀ c ∈ cs, ',' ∉ c.data) →
      request.Get "sorts" = Join cs → Join cs ≠ "" →
      ParseSorts request filterMapping = cs.map (sortEntrySpec filterMapping)) ∧
    (∃ cs : List String, cs ≠ [] ∧ (∀ c ∈ cs, ',' ∉ c.data) ∧ request.Get "sorts" = Join cs) ∧
    (request.Get "sorts" = "" → ParseSorts request filterMapping = []) ∧
    (request.query.get "sorts" = none → ParseSorts request filterMapping = []) := by
  refine ⟨?_, ?_, ?_, ?_⟩
  · intro cs hne hcs hget hnonempty
    unfold ParseSorts
    rw [hget, if_neg hnonempty, Split_Join cs hne hcs]
    exact List.map_congr_left (fun c _ => sortEntry_eq_spec filterMapping c)
  · exact ⟨Split (request.Get "sorts"), Split_ne_nil _, not_mem_of_mem_Split _,
      (Join_Split _).symm⟩
  · intro h
    unfold ParseSorts
    rw [if_pos h]
  · intro h
    unfold ParseSorts Request.Get
    rw [h]
    rfl

/-- C9, witness: `sorts=-a,b,b,+c` with the alias `a -> col_a` gives
`[(col_a, Desc), (b, Asc), (b, Asc), (c, Asc)]`. -/
theorem C9_witness :
    ParseSorts requestSorts aliasesSorts =
      [{ Key := "col_a", Dir := Desc }, { Key := "b", Dir := Asc }, { Key := "b", Dir := Asc },
       { Key := "c", Dir := Asc }] :=
  (C9_ParseSorts_one_entry_per_component requestSorts aliasesSorts).1 ["-a", "b", "b", "+c"]
    (by decide) (by decide) (by decide) (by decide)

/-! ## The range map -/

theorem Add_get_of_ne (r : Range) (key : RangeKey) (typ : RangeType) (val : Int)
    (f : RangeKey) (h : f ≠ key) : (r.Add key typ val).get f = r.get f := by
  unfold Range.Add
  cases r.get key <;> exact GoMap.get_set_ne r _ h

theorem Add_get_self (r : Range) (key : RangeKey) (typ : RangeType) (val : Int) :
    ∃ m, (r.Add key typ val).get key = some m ∧ m.get typ = some val ∧
      ∀ t, t ≠ typ → m.get t = (r.get key).bind (fun m0 => m0.get t) := by
  unfold Range.Add
  cases h : r.get key with
  | none =>
    refine ⟨_, GoMap.get_set_self r key _, GoMap.get_set_self _ typ val, ?_⟩
    intro t ht
    rw [GoMap.get_set_ne _ _ ht]
    rfl
  | some m0 =>
    refine ⟨_, GoMap.get_set_self r key _, GoMap.get_set_self _ typ val, ?_⟩
    intro t ht
    rw [GoMap.get_set_ne _ _ ht]
    rfl

theorem Add_Add_get (r : Range) (key : RangeKey) (x y : Int) :
    ∃ m, ((r.Add key Gte x).Add key Lte y).get key = some m ∧
      m.get Gte = some x ∧ m.get Lte = some y := by
  obtain ⟨m1, h1, h1v, _⟩ := Add_get_self r key Gte x
  obtain ⟨m2, h2, h2v, h2o⟩ := Add_get_self (r.Add key Gte x) key Lte y
  refine ⟨m2, h2, ?_, h2v⟩
  rw [h2o Gte (by decide), h1]
  exact h1v

theorem sortInt64_pair (a b : Int) :
    sortInt64 [a, b] = [min a b, max a b] := by
  unfold sortInt64
  by_cases h : a ≤ b
  · simp [List.insertionSort, List.orderedInsert, h]
  · have hba : b ≤ a := le_of_lt (not_le.mp h)
    simp [List.insertionSort, List.orderedInsert, h, hba]

theorem parseEntry_get_of_ne (r r1 : Range) (v key val : String) (f : RangeKey)
    (hv : Range.parseVal v = some (key, val)) (hne : Range.getKey key ≠ f)
    (h : Range.parseEntry r v = some r1) : r1.get f = r.get f := by
  unfold Range.parseEntry at h
  rw [hv] at h
  dsimp only at h
  split at h
  · split at h
    · rw [← Option.some.inj h]
      exact Add_get_of_ne r _ _ _ f (Ne.symm hne)
    · cases h
  · split at h
    · split at h
      · rw [← Option.some.inj h]
        exact Add_get_of_ne r _ _ _ f (Ne.symm hne)
      · cases h
    · split at h
      · split at h
        · rw [← Option.some.inj h, Add_get_of_ne _ _ _ _ f (Ne.symm hne)]
          exact Add_get_of_ne r _ _ _ f (Ne.symm hne)
        · cases h
      · rw [← Option.some.inj h]

theorem parseEntry_some_parseVal (r r1 : Range) (v : String)
    (h : Range.parseEntry r v = some r1) : ∃ key val, Range.parseVal v = some (key, val) := by
  unfold Range.parseEntry at h
  cases hv : Range.parseVal v with
  | none => rw [hv] at h; cases h
  | some kv => exact ⟨kv.1, kv.2, rfl⟩

theorem parseEntries_get_of_ne (post : List String) (r r1 : Range) (f : RangeKey)
    (h : Range.parseEntries r post = some r1)
    (hne : ∀ e1 ∈ post, ∀ key1 val1, Range.parseVal e1 = some (key1, val1) →
      Range.getKey key1 ≠ f) : r1.get f = r.get f := by
  induction post generalizing r with
  | nil =>
    rw [Range.parseEntries] at h
    rw [← Option.some.inj h]
  | cons e t ih =>
    rw [Range.parseEntries] at h
    cases he : Range.parseEntry r e with
    | none => rw [he] at h; cases h
    | some r2 =>
      rw [he] at h
      obtain ⟨key, val, hv⟩ := parseEntry_some_parseVal r r2 e he
      rw [ih r2 h (fun e1 h1 => hne e1 (List.mem_cons_of_mem e h1)),
        parseEntry_get_of_ne r r2 e key val f hv (hne e (List.mem_cons_self e t) key val hv) he]

theorem parseEntries_append (a b : List String) (r : Range) :
    Range.parseEntries r (a ++ b) =
      (Range.parseEntries r a).bind (fun r1 => Range.parseEntries r1 b) := by
  induction a generalizing r with
  | nil => rfl
  | cons e t ih =>
    show Range.parseEntries r (e :: (t ++ b)) = _
    rw [Range.parseEntries, Range.parseEntries]
    cases Range.parseEntry r e with
    | none => rfl
    | some r2 => exact ih r2

theorem getVal_of_two (val a b : String) (h : Split val = [a, b]) :
    Range.getVal val =
      some [min (Range.atoiOrZero a) (Range.atoiOrZero b),
        max (Range.atoiOrZero a) (Range.atoiOrZero b)] := by
  unfold Range.getVal
  rw [h]
  dsimp only
  rw [sortInt64_pair]

theorem parseEntry_of_two (r : Range) (v key val a b : String)
    (hv : Range.parseVal v = some (key, val)) (h : Split val = [a, b]) :
    Range.parseEntry r v =
      some ((r.Add (Range.getKey key) Gte
          (min (Range.atoiOrZero a) (Range.atoiOrZero b))).Add (Range.getKey key) Lte
          (max (Range.atoiOrZero a) (Range.atoiOrZero b))) := by
  unfold Range.parseEntry
  rw [hv]
  dsimp only
  have h1 : Range.isGte key val = false := by simp [Range.isGte, h]
  have h2 : Range.isLte key val = false := by simp [Range.isLte, h]
  have h3 : Range.isGteLte val = true := by simp [Range.isGteLte, h]
  rw [h1, h2, h3, getVal_of_two val a b h]
  rfl

theorem two_of_length (l : List String) (h : l.length = 2) : ∃ a b, l = [a, b] := by
  match l, h with
  | [a, b], _ => exact ⟨a, b, rfl⟩

/-- C6, the code at the failing input: the single entry `é:1,2` (the key `é`
is one character of two bytes) is parsed into the field `é:` with lower bound
0 and upper bound 2, and `é:2,1` into the field `é:` with lower bound 0 and
upper bound 1; the claim asks for the field `é` with bounds 1 and 2 in both
cases, and for identical maps. -/
theorem C6_Parse_two_components_multibyte_key :
    (Range.Parse GoMap.empty (requestRange ["é:1,2"])).map Range.bounds =
      some [("é:", some 0, some 2)] ∧
    (Range.Parse GoMap.empty (requestRange ["é:2,1"])).map Range.bounds =
      some [("é:", some 0, some 1)] := by
  decide

/-- C7, the code at the failing input: the single entry `é:18` is parsed into
a lower bound 8 for the field `é:`, and `-é:30` into an upper bound 0 for the
field `é:`; the claim asks for the field `é` with lower bound 18, and with
upper bound 30. -/
theorem C7_Parse_one_component_multibyte_key :
    (Range.Parse GoMap.empty (requestRange ["é:18"])).map Range.bounds =
      some [("é:", some 8, none)] ∧
    (Range.Parse GoMap.empty (requestRange ["-é:30"])).map Range.bounds =
      some [("é:", none, some 0)] := by
  decide

/-- C8, counterexample: for the request `?range=age:30&range=-age:18` the range
map `Range.Parse` produces holds, for the field `age`, the lower bound 30 and
the upper bound 18. -/
theorem C8_counterexample :
    (Range.Parse GoMap.empty (requestRange ["age:30", "-age:18"])).map Range.bounds =
      some [("age", some 30, some 18)] ∧ ¬ ((30 : Int) ≤ 18) := by
  decide

/-! ## Range entries whose key is made of one-byte characters -/

theorem byteIndexFrom_append (a b : List Char) (off : Nat)
    (h1 : ∀ c ∈ a, c.utf8Size = 1) (h2 : ':' ∉ a) :
    byteIndexFrom ':' off (a ++ ':' :: b) = some (off + a.length) := by
  induction a generalizing off with
  | nil =>
    show byteIndexFrom ':' off (':' :: b) = some (off + 0)
    rw [byteIndexFrom, if_pos rfl]
    rfl
  | cons c cs ih =>
    have hc : ¬ c = ':' := fun e => h2 (by rw [e]; exact List.mem_cons_self _ cs)
    have hcs : ':' ∉ cs := fun e => h2 (List.mem_cons_of_mem c e)
    show byteIndexFrom ':' off (c :: (cs ++ ':' :: b)) = some (off + (cs.length + 1))
    rw [byteIndexFrom, if_neg hc, ih (off + c.utf8Size)
      (fun d hd => h1 d (List.mem_cons_of_mem c hd)) hcs, h1 c (List.mem_cons_self c cs)]
    congr 1
    omega

theorem drop_succ_append (a b : List Char) (c : Char) :
    List.drop (a.length + 1) (a ++ c :: b) = b := by
  induction a with
  | nil => rfl
  | cons d ds ih => exact ih

theorem parseVal_single_byte_key (k val : String) (h1 : ∀ c ∈ k.data, c.utf8Size = 1)
    (h2 : ':' ∉ k.data) : Range.parseVal (k ++ ":" ++ val) = some (k, val) := by
  have hd : (k ++ ":" ++ val).data = k.data ++ ':' :: val.data := by
    simp [String.data_append]
  have hlen : 0 + k.data.length + 1 ≤ (k.data ++ ':' :: val.data).length := by
    simp
  unfold Range.parseVal Index
  rw [hd, byteIndexFrom_append k.data val.data 0 h1 h2]
  dsimp only
  rw [if_pos hlen, Nat.zero_add, List.take_left' rfl, drop_succ_append]

theorem Split_pair (v1 v2 : String) (h1 : ',' ∉ v1.data) (h2 : ',' ∉ v2.data) :
    Split (v1 ++ "," ++ v2) = [v1, v2] := by
  have hd : (v1 ++ "," ++ v2).data = v1.data ++ ',' :: v2.data := by
    simp [String.data_append]
  unfold Split
  rw [hd, splitChars_append_sep ',' _ _ h1, splitChars_of_not_mem ',' _ h2]
  rfl

theorem Split_single (v : String) (h : ',' ∉ v.data) : Split v = [v] := by
  unfold Split
  rw [splitChars_of_not_mem ',' _ h]
  rfl

theorem bounds_Add_Add (f : RangeKey) (x y : Int) :
    Range.bounds (Range.Add (Range.Add GoMap.empty f Gte x) f Lte y) =
      [(f, some x, some y)] := by
  simp [Range.bounds, Range.Add, GoMap.get, GoMap.set, GoMap.empty]

theorem bounds_Add_Gte (f : RangeKey) (x : Int) :
    Range.bounds (Range.Add GoMap.empty f Gte x) = [(f, some x, none)] := by
  simp [Range.bounds, Range.Add, GoMap.get, GoMap.set, GoMap.empty]

theorem bounds_Add_Lte (f : RangeKey) (x : Int) :
    Range.bounds (Range.Add GoMap.empty f Lte x) = [(f, none, some x)] := by
  simp [Range.bounds, Range.Add, GoMap.get, GoMap.set, GoMap.empty]

/-- For a key of one-byte characters without a colon and two components without
a comma, the single entry `k:v1,v2` gives the field `getKey k` with the smaller
value as lower and the larger as upper bound. -/
theorem Parse_two_components_single_byte_key (k v1 v2 : String)
    (h1 : ∀ c ∈ k.data, c.utf8Size = 1) (h2 : ':' ∉ k.data)
    (h3 : ',' ∉ v1.data) (h4 : ',' ∉ v2.data) :
    (Range.Parse GoMap.empty (requestRange [k ++ ":" ++ (v1 ++ "," ++ v2)])).map Range.bounds =
      some [(Range.getKey k,
        some (min (Range.atoiOrZero v1) (Range.atoiOrZero v2)),
        some (max (Range.atoiOrZero v1) (Range.atoiOrZero v2)))] := by
  have hp : Range.Parse GoMap.empty (requestRange [k ++ ":" ++ (v1 ++ "," ++ v2)]) =
      Range.parseEntries GoMap.empty [k ++ ":" ++ (v1 ++ "," ++ v2)] := rfl
  rw [hp, Range.parseEntries,
    parseEntry_of_two GoMap.empty _ k (v1 ++ "," ++ v2) v1 v2
      (parseVal_single_byte_key k _ h1 h2) (Split_pair v1 v2 h3 h4)]
  show Option.map Range.bounds (some _) = _
  rw [Option.map_some', bounds_Add_Add]

/-- For a field name of one-byte characters without a colon and without a
leading sign, and a value without a comma, the single entry `f:v` gives only a
lower bound for `f` and `-f:v` only an upper bound. -/
theorem Parse_one_component_single_byte_key (f v : String)
    (h1 : ∀ c ∈ f.data, c.utf8Size = 1) (h2 : ':' ∉ f.data)
    (hm : HasPrefix f '-' = false) (hp : HasPrefix f '+' = false) (h3 : ',' ∉ v.data) :
    (Range.Parse GoMap.empty (requestRange [f ++ ":" ++ v])).map Range.bounds =
      some [(f, some (Range.atoiOrZero v), none)] ∧
    (Range.Parse GoMap.empty (requestRange ["-" ++ f ++ ":" ++ v])).map Range.bounds =
      some [(f, none, some (Range.atoiOrZero v))] := by
  have htrim : ∀ c : Char, HasPrefix f c = false → TrimPrefix f c = f := by
    intro c hc
    unfold HasPrefix at hc
    unfold TrimPrefix
    cases hf : f.data with
    | nil => rfl
    | cons d ds =>
      rw [hf] at hc
      have : ¬ d = c := by simpa using hc
      simp [this]
  have hkey : Range.getKey f = f := by
    unfold Range.getKey
    rw [htrim '-' hm, htrim '+' hp]
  have hdata : ("-" ++ f).data = '-' :: f.data := by simp [String.data_append]
  have hkey2 : Range.getKey ("-" ++ f) = f := by
    unfold Range.getKey
    have : TrimPrefix ("-" ++ f) '-' = f := by
      unfold TrimPrefix
      rw [hdata]
      simp
    rw [this, htrim '+' hp]
  have hneg : HasPrefix ("-" ++ f) '-' = true := by
    unfold HasPrefix
    rw [hdata]
    simp
  have h1n : ∀ c ∈ ("-" ++ f).data, c.utf8Size = 1 := by
    intro c hc
    rw [hdata] at hc
    rcases List.mem_cons.mp hc with h | h
    · rw [h]; decide
    · exact h1 c h
  have h2n : ':' ∉ ("-" ++ f).data := by
    rw [hdata]
    intro hc
    rcases List.mem_cons.mp hc with h | h
    · exact absurd h (by decide)
    · exact h2 h
  constructor
  · have hparse : Range.Parse GoMap.empty (requestRange [f ++ ":" ++ v]) =
        Range.parseEntries GoMap.empty [f ++ ":" ++ v] := rfl
    rw [hparse, Range.parseEntries, Range.parseEntry, parseVal_single_byte_key f v h1 h2]
    simp [Range.isGte, hm, Split_single v h3, Range.getVal, Range.parseEntries, hkey,
      bounds_Add_Gte]
  · have hparse : Range.Parse GoMap.empty (requestRange ["-" ++ f ++ ":" ++ v]) =
        Range.parseEntries GoMap.empty ["-" ++ f ++ ":" ++ v] := rfl
    rw [hparse, Range.parseEntries, Range.parseEntry,
      parseVal_single_byte_key ("-" ++ f) v h1n h2n]
    simp [Range.isGte, Range.isLte, hneg, Split_single v h3, Range.getVal, Range.parseEntries,
      hkey2, bounds_Add_Lte]

/-! ## typeconvert.go -/

theorem utf8ByteSize_pos_iff (s : String) : 0 < s.utf8ByteSize ↔ s ≠ "" := by
  cases s with
  | mk cs =>
    cases cs with
    | nil => simp [String.utf8ByteSize, String.utf8ByteSize.go]
    | cons c t =>
      constructor
      · intro _ h
        have := congrArg String.data h
        simp at this
      · intro _
        show 0 < String.utf8ByteSize.go (c :: t)
        unfold String.utf8ByteSize.go
        exact Nat.add_pos_right _ (Char.utf8Size_pos c)

/-- C20: for every string `s`, `StringToBool(s)` is true exactly when `s` is
not empty and is not "0", whatever `strings.ToLower` returns on other strings
(it leaves the empty string and "0" unchanged). -/
theorem C20_StringToBool_iff (ToLower : String → String) (h1 : ToLower "" = "")
    (h2 : ToLower "0" = "0") (s : String) :
    StringToBool ToLower s = true ↔ (s ≠ "" ∧ s ≠ "0") := by
  unfold StringToBool
  simp only [Bool.or_eq_true, Bool.and_eq_true, decide_eq_true_eq, utf8ByteSize_pos_iff]
  constructor
  · rintro ((h | h) | h)
    · constructor
      · intro hs
        rw [hs, h1] at h
        exact absurd h (by decide)
      · intro hs
        rw [hs, h2] at h
        exact absurd h (by decide)
    · rw [h]
      exact ⟨by decide, by decide⟩
    · exact ⟨h.2, h.1⟩
  · intro h
    exact Or.inr ⟨h.2, h.1⟩

/-- C20, witness: with ASCII lower-casing, "false" is true and the empty
string and "0" are false. -/
theorem C20_witness :
    StringToBool asciiLower "false" = true ∧ StringToBool asciiLower "" = false ∧
    StringToBool asciiLower "0" = false :=
  ⟨(C20_StringToBool_iff asciiLower (by decide) (by decide) "false").mpr
      ⟨by decide, by decide⟩,
    by decide, by decide⟩

/-! ## Malformed and multi-byte range entries -/

/-- C15, the code at the failing input: for the request `?range=abc` (an entry
without a colon) `parseVal` slices `runeVal[0:-1]` and panics, so `Range.Parse`
does not return; `Find` makes its first five driver calls and then panics
before `Range`, `Where`, `Find` and `Count`. The claim asks for the entry to be
skipped or reported without a panic. -/
theorem C15_Parse_panics_without_colon (driver : Driver) (s : Record) (visit : Range → List RangeKey) :
    Range.parseVal "abc" = none ∧
    Range.Parse GoMap.empty (requestRange ["abc"]) = none ∧
    ((New (requestRange ["abc"]) driver).Find s visit).returned.isSome = false ∧
    ((New (requestRange ["abc"]) driver).Find s visit).calls.length = 5 := by
  have hp : (New (requestRange ["abc"]) driver).ParseRange visit = none := rfl
  refine ⟨by decide, by decide, ?_, ?_⟩
  · unfold Pagination.Find
    rw [hp]
    rfl
  · rw [Find_calls_of_panic _ s visit hp]
    rfl

/-- C16, the code at the failing input: for the entry `é:1` (the key `é` is
one character of two bytes) `parseVal` returns the key `é:` and the empty
value, and for `日本:1` it panics; the claim asks for the key `é` and the value
`1`, and for the key `日本` and the value `1`. -/
theorem C16_parseVal_multibyte_key :
    Range.parseVal "é:1" = some ("é:", "") ∧
    Range.parseVal "日本:1" = none := by
  decide

theorem renameEntries_self_alias (visit : List RangeKey) (h : "age" ∈ visit) :
    (paginationSelfAlias.renameEntries (Range.Add GoMap.empty "age" Gte 18) visit).entries =
      [] := by
  have hafter : ∀ l : List RangeKey,
      paginationSelfAlias.renameEntries
        (paginationSelfAlias.renameEntry (Range.Add GoMap.empty "age" Gte 18) "age") l =
      paginationSelfAlias.renameEntry (Range.Add GoMap.empty "age" Gte 18) "age" :=
    fun l => renameEntries_of_absent _ _ l (fun k _ => GoMap.get_eq_none_of_not_mem _ k
      (by
        have he : (paginationSelfAlias.renameEntry
            (Range.Add GoMap.empty "age" Gte 18) "age").keys = [] := by decide
        rw [he]
        exact List.not_mem_nil k))
  induction visit with
  | nil => cases h
  | cons k t ih =>
    show (paginationSelfAlias.renameEntries
      (paginationSelfAlias.renameEntry (Range.Add GoMap.empty "age" Gte 18) k) t).entries = []
    by_cases hk : k = "age"
    · rw [hk, hafter t]
      decide
    · have hget : (Range.Add GoMap.empty "age" Gte 18).get k = none :=
        GoMap.get_eq_none_of_not_mem _ k
          (by
            have he : (Range.Add GoMap.empty "age" Gte 18).keys = ["age"] := by decide
            rw [he]
            exact fun hm => hk (List.mem_singleton.mp hm))
      rw [renameEntry_of_absent _ _ k hget]
      rcases List.mem_cons.mp h with h1 | h1
      · exact absurd h1.symm hk
      · exact ih h1

/-- C18, the code at the failing input: with the alias `age -> age` and the
request `?range=age:18`, `Range.Parse` gives the lower bound 18 for `age` and
`ParseRange` returns the empty map, whatever the visiting order of its loop:
the entry is stored under its alias and then deleted under its own name. With
the alias `a -> b` and the request `?range=a:1&range=b:2`, `ParseRange` returns
only `b` with lower bound 1, in either visiting order: the bound of `b` itself
is overwritten. With the alias `a -> x` the same request gives `x` with lower
bound 1 and `b` with lower bound 2. -/
theorem C18_ParseRange_loses_entries :
    (Range.Parse GoMap.empty paginationSelfAlias.ctx).map Range.bounds =
      some [("age", some 18, none)] ∧
    (∀ visit : Range → List RangeKey, admissible visit →
      (paginationSelfAlias.ParseRange visit).map Range.bounds = some []) ∧
    (Range.Parse GoMap.empty paginationAliasOnto.ctx).map Range.bounds =
      some [("b", some 2, none), ("a", some 1, none)] ∧
    (paginationAliasOnto.ParseRange (fun _ => ["a", "b"])).map Range.bounds =
      some [("b", some 1, none)] ∧
    (paginationAliasOnto.ParseRange (fun _ => ["b", "a"])).map Range.bounds =
      some [("b", some 1, none)] ∧
    (paginationAliasFresh.ParseRange GoMap.keys).map Range.bounds =
      some [("x", some 1, none), ("b", some 2, none)] := by
  refine ⟨by decide, ?_, by decide, by decide, by decide, by decide⟩
  intro visit hv
  have hparse : Range.Parse GoMap.empty paginationSelfAlias.ctx =
      some (Range.Add GoMap.empty "age" Gte 18) := by decide
  unfold Pagination.ParseRange
  rw [hparse]
  show some (Range.bounds _) = some []
  unfold Range.bounds
  rw [renameEntries_self_alias _ (hv _ "age" (by decide))]
  rfl

/-! ## driver/gorm.go -/

/-- C14, the code at the failing input: for the range map with the bounds
`Gte 18` and `Lte 30` on `age`, `Gorm.Range` appends the conditions
`age > ?` and `age < ?` with the arguments 18 and 30; the claim asks for
`age >= 18` and `age <= 30`. -/
theorem C14_Gorm_Range_renders_strict_comparisons :
    (NewGormDriver.Range rangeAge).query = "AND `age` > ? AND `age` < ? " ∧
    (NewGormDriver.Range rangeAge).args = [Value.int 18, Value.int 30] := by
  decide

/-! ## The order of the driver calls -/

/-- C12, counterexample: for the configuration `paginationFilter` the calls
`Find` makes are, in order, `SetTyp`, `Limit`, `Sort`, `Index`, `Skip`,
`Range`, `Where`, `Find`, `Count`: `Index` is the fourth call, after `Limit`
and `Sort`, not the second. -/
theorem C12_counterexample :
    (paginationFilter.Find GoMap.empty GoMap.keys).calls.map DriverCall.name =
      ["SetTyp", "Limit", "Sort", "Index", "Skip", "Range", "Where", "Find", "Count"] ∧
    (paginationFilter.Find GoMap.empty GoMap.keys).calls.map DriverCall.name ≠
      ["SetTyp", "Index", "Limit", "Sort", "Skip", "Range", "Where", "Find", "Count"] := by
  decide

/-- C12, amended: when the range entries of the request parse (`ParseRange`
returns `r`), the calls `Find` makes on the driver are, in this order,
`SetTyp` (record type), `Limit` (page size), `Sort` (sort list), `Index`
(collection name), `Skip` (offset), `Range` (range predicate), `Where`
(filter predicate), then the driver's `Find` and `Count`. -/
theorem C12_driver_call_order (p : Pagination) (s : Record) (visit : Range → List RangeKey) (r : Range)
    (h : p.ParseRange visit = some r) :
    (p.Find s visit).calls =
      [DriverCall.SetTyp s.keys,
       DriverCall.Limit p.ParsingLimit,
       DriverCall.Sort (ParseSorts p.ctx p.fieldMapping),
       DriverCall.Index p.index,
       DriverCall.Skip (wrapInt64 (p.ParsingLimit * ParseSkip p.ctx)),
       DriverCall.Range r,
       DriverCall.Where p.filter,
       DriverCall.Find,
       DriverCall.Count] ∧
    (p.Find s visit).calls.map DriverCall.name =
      ["SetTyp", "Limit", "Sort", "Index", "Skip", "Range", "Where", "Find", "Count"] := by
  rw [Find_calls_of_range p s visit r h]
  exact ⟨rfl, rfl⟩

/-- C12, witness: the request of `paginationFilter` has no range entry, so
`ParseRange` returns the empty map. -/
theorem C12_witness :
    paginationFilter.ParseRange GoMap.keys = some GoMap.empty ∧
    (paginationFilter.Find GoMap.empty GoMap.keys).calls.map DriverCall.name =
      ["SetTyp", "Limit", "Sort", "Index", "Skip", "Range", "Where", "Find", "Count"] :=
  ⟨by decide, (C12_driver_call_order paginationFilter GoMap.empty GoMap.keys GoMap.empty (by decide)).2⟩

/-! ## The result page -/

theorem head_getLast_of_ne_nil (data : List Record) (h : data ≠ []) :
    ∃ first last, data.head? = some first ∧ data.getLast? = some last ∧
      first ∈ data ∧ last ∈ data := by
  cases data with
  | nil => exact absurd rfl h
  | cons a t =>
    refine ⟨a, (a :: t).getLast (List.cons_ne_nil a t), rfl, ?_, List.mem_cons_self a t,
      List.getLast_mem _⟩
    exact List.getLast?_eq_getLast _ _

/-- C11: let range parsing succeed and let every record of the page the
driver's `Find` materialises have the configured pagination field. Then `Find`
returns with a result whose data is that page; when a pagination field is
configured and the page is not empty, `NextID` is the field's value on the
last record and `PrevID` the field's value on the first record; when the page
is empty or no pagination field is configured, `NextID` and `PrevID` are
absent. -/
theorem C11_cursor_ids (p : Pagination) (s : Record) (visit : Range → List RangeKey) (r : Range)
    (hr : p.ParseRange visit = some r)
    (hfield : p.paginationField ≠ "" →
      ∀ rec ∈ p.driver.Find (p.configCalls s r), (rec.get p.paginationField).isSome = true) :
    ∃ p1 res, (p.Find s visit).returned = some p1 ∧ p1.result = some res ∧
      res.Data = p.driver.Find (p.configCalls s r) ∧
      (res.Data ≠ [] → p.paginationField ≠ "" →
        ∃ first last, res.Data.head? = some first ∧ res.Data.getLast? = some last ∧
          res.NextID = last.get p.paginationField ∧ res.NextID.isSome = true ∧
          res.PrevID = first.get p.paginationField ∧ res.PrevID.isSome = true) ∧
      ((res.Data = [] ∨ p.paginationField = "") → res.NextID = none ∧ res.PrevID = none) := by
  unfold Pagination.Find
  rw [hr]
  dsimp only
  unfold Pagination.configCalls at hfield ⊢
  generalize p.driver.Find _ = data at hfield ⊢
  by_cases hc : 0 < data.length ∧ p.paginationField ≠ ""
  · rw [if_pos hc]
    have hne : data ≠ [] := by
      intro h
      rw [h] at hc
      exact absurd hc.1 (by simp)
    obtain ⟨first, last, hfirst, hlast, hfm, hlm⟩ := head_getLast_of_ne_nil data hne
    obtain ⟨next, hnext⟩ := Option.isSome_iff_exists.mp (hfield hc.2 last hlm)
    obtain ⟨prev, hprev⟩ := Option.isSome_iff_exists.mp (hfield hc.2 first hfm)
    have h1 : fieldOf data.getLast? p.paginationField = some next := by
      rw [hlast]
      exact hnext
    have h2 : fieldOf data.head? p.paginationField = some prev := by
      rw [hfirst]
      exact hprev
    rw [h1, h2]
    refine ⟨_, _, rfl, rfl, rfl, ?_, ?_⟩
    · intro _ _
      exact ⟨first, last, hfirst, hlast, hnext.symm, rfl, hprev.symm, rfl⟩
    · intro h
      rcases h with h | h
      · exact absurd h hne
      · exact absurd h hc.2
  · rw [if_neg hc]
    refine ⟨_, _, rfl, rfl, rfl, ?_, ?_⟩
    · intro h1 h2
      exact absurd ⟨List.length_pos.mpr h1, h2⟩ hc
    · intro _
      exact ⟨rfl, rfl⟩

/-- C11, witness: the driver returns the records with `ID` 4, 5 and 6 and the
pagination field is `ID`, so `NextID` is 6 and `PrevID` is 4. -/
theorem C11_witness :
    ∃ p1 res, (paginationCursor.Find (recordWithID 0) GoMap.keys).returned = some p1 ∧
      p1.result = some res ∧
      res.Data = [recordWithID 4, recordWithID 5, recordWithID 6] ∧
      res.NextID = some (Value.int 6) ∧ res.PrevID = some (Value.int 4) := by
  obtain ⟨p1, res, h1, h2, h3, h4, _⟩ :=
    C11_cursor_ids paginationCursor (recordWithID 0) GoMap.keys GoMap.empty (by decide)
      (by
        intro _ rec hrec
        have hm : rec ∈ [recordWithID 4, recordWithID 5, recordWithID 6] := hrec
        simp only [List.mem_cons, List.mem_singleton, List.not_mem_nil, or_false] at hm
        rcases hm with h | h | h <;> rw [h] <;> decide)
  have hd : res.Data = [recordWithID 4, recordWithID 5, recordWithID 6] := h3
  obtain ⟨first, last, hf, hl, hn, _, hp, _⟩ := h4 (by rw [hd]; simp) (by decide)
  rw [hd] at hf hl
  refine ⟨p1, res, h1, h2, hd, ?_, ?_⟩
  · rw [hn, ← Option.some.inj hl]
    decide
  · rw [hp, ← Option.some.inj hf]
    decide

/-! ## Accumulation of range entries -/

theorem bound_empty (f : RangeKey) (t : RangeType) :
    Range.bound GoMap.empty f t = none := rfl

theorem bound_Add (r : Range) (k : RangeKey) (typ : RangeType) (x : Int) (f : RangeKey)
    (t : RangeType) :
    (Range.Add r k typ x).bound f t = if f = k ∧ t = typ then some x else r.bound f t := by
  unfold Range.bound
  by_cases hf : f = k
  · subst hf
    obtain ⟨m, hm, hv, ho⟩ := Add_get_self r f typ x
    rw [hm]
    by_cases ht : t = typ
    · subst ht
      rw [if_pos ⟨rfl, rfl⟩]
      exact hv
    · rw [if_neg (fun h => ht h.2)]
      dsimp only
      rw [ho t ht]
      cases r.get f <;> rfl
  · rw [Add_get_of_ne r k typ x f hf, if_neg (fun h => hf h.1)]

/-! ## The visiting order of the request parameters -/

theorem get_eq_of_perm {K V : Type} [DecidableEq K] (m1 m2 : GoMap K V)
    (h : m2.entries.Perm m1.entries) (k : K) : m2.get k = m1.get k := by
  cases h1 : m1.get k with
  | some v =>
    exact GoMap.get_of_mem m2 k v ((List.Perm.mem_iff h).mpr (GoMap.mem_of_get m1 k v h1))
  | none =>
    apply GoMap.get_eq_none_of_not_mem
    intro hk
    apply GoMap.not_mem_keys_of_get m1 k h1
    exact (List.Perm.mem_iff (List.Perm.map Prod.fst h)).mp hk

theorem foldl_queryEntry_get_perm (p : Pagination) (l1 l2 : List (String × List String))
    (hn1 : (l1.map Prod.fst).Nodup) (hn2 : (l2.map Prod.fst).Nodup) (hperm : l2.Perm l1)
    (hinj : ∀ f1 ∈ l1.map Prod.fst, ∀ f2 ∈ l1.map Prod.fst,
      mapped p.fieldMapping f1 = mapped p.fieldMapping f2 → f1 = f2)
    (k : String) :
    (l2.foldl p.queryEntry GoMap.empty).get k = (l1.foldl p.queryEntry GoMap.empty).get k := by
  by_cases h : ∃ e ∈ l1, mapped p.fieldMapping e.1 = k
  · obtain ⟨e, he, hk⟩ := h
    obtain ⟨f, vals⟩ := e
    have hk1 : mapped p.fieldMapping f = k := hk
    subst hk1
    have hu1 : ∀ e1 ∈ l1, mapped p.fieldMapping e1.1 = mapped p.fieldMapping f → e1.1 = f :=
      fun e1 h1 heq =>
        hinj e1.1 (List.mem_map_of_mem Prod.fst h1) f (List.mem_map_of_mem Prod.fst he) heq
    have hu2 : ∀ e1 ∈ l2, mapped p.fieldMapping e1.1 = mapped p.fieldMapping f → e1.1 = f :=
      fun e1 h1 heq => hu1 e1 ((List.Perm.mem_iff hperm).mp h1) heq
    rw [foldl_queryEntry_get_unique p l1 hn1 _ f vals he hu1,
      foldl_queryEntry_get_unique p l2 hn2 _ f vals ((List.Perm.mem_iff hperm).mpr he) hu2]
  · have h1 : ∀ e ∈ l1, mapped p.fieldMapping e.1 ≠ k := fun e he hk => h ⟨e, he, hk⟩
    have h2 : ∀ e ∈ l2, mapped p.fieldMapping e.1 ≠ k :=
      fun e he => h1 e ((List.Perm.mem_iff hperm).mp he)
    rw [foldl_queryEntry_get_of_ne p l1 _ k h1, foldl_queryEntry_get_of_ne p l2 _ k h2]

/-- C19, counterexample: with the alias `uid -> user_id`, the request
`?uid=1&user_id=2` visited as `uid`, `user_id` gives the filter entry
`user_id = 2`, and the same parameters visited as `user_id`, `uid` give
`user_id = 1`. -/
theorem C19_counterexample :
    requestAliasClashRev.query.entries = requestAliasClash.query.entries.reverse ∧
    (paginationAlias requestAliasClash).ParsingQuery.get "user_id" = some (Value.str "2") ∧
    (paginationAlias requestAliasClashRev).ParsingQuery.get "user_id" =
      some (Value.str "1") := by
  decide

/-- C19, amended: when no two parameters of the request have the same storage
name (the alias of a parameter that has one, the parameter itself otherwise),
the filter map built by `ParsingQuery` holds the same value for every key
whatever the order in which the parameters are visited. -/
theorem C19_ParsingQuery_order_independent (p : Pagination) (request1 : Request)
    (hperm : request1.query.entries.Perm p.ctx.query.entries)
    (hinj : ∀ f1 ∈ p.ctx.query.keys, ∀ f2 ∈ p.ctx.query.keys,
      mapped p.fieldMapping f1 = mapped p.fieldMapping f2 → f1 = f2)
    (k : String) :
    ({ p with ctx := request1 } : Pagination).ParsingQuery.get k = p.ParsingQuery.get k :=
  foldl_queryEntry_get_perm p p.ctx.query.entries request1.query.entries p.ctx.query.nodup
    request1.query.nodup hperm hinj k

/-- C19, witness: in `requestFilter` only `uid` has an alias, and `user_id` is
not a parameter of the request; visiting the parameters in the opposite order
gives the same filter entries. -/
theorem C19_witness :
    ({ paginationFilter with ctx := requestFilterRev } : Pagination).ParsingQuery.get "user_id" =
      some (Value.str "7") ∧
    paginationFilter.ParsingQuery.get "user_id" = some (Value.str "7") :=
  ⟨(C19_ParsingQuery_order_independent paginationFilter requestFilterRev
      (List.reverse_perm requestFilter.query.entries) (by decide) "user_id").trans (by decide),
    by decide⟩

/-! ## The configuration across calls of `Find` -/

theorem Find_returned (p : Pagination) (s : Record) (visit : Range → List RangeKey) (p1 : Pagination)
    (h : (p.Find s visit).returned = some p1) :
    ∃ res, p1 = { p with dataTyp := some s.keys, result := some res } := by
  unfold Pagination.Find at h
  cases hr : p.ParseRange visit with
  | none =>
    rw [hr] at h
    cases h
  | some r =>
    rw [hr] at h
    dsimp only at h
    split at h
    · split at h
      · exact ⟨_, (Option.some.inj h).symm⟩
      · cases h
    · exact ⟨_, (Option.some.inj h).symm⟩

theorem Find_calls_congr (p q : Pagination) (s : Record) (visit : Range → List RangeKey)
    (h1 : q.ParsingLimit = p.ParsingLimit)
    (h2 : ParseSorts q.ctx q.fieldMapping = ParseSorts p.ctx p.fieldMapping)
    (h3 : q.index = p.index) (h4 : ParseSkip q.ctx = ParseSkip p.ctx)
    (h5 : q.ParseRange visit = p.ParseRange visit) (h6 : q.filter = p.filter) :
    (q.Find s visit).calls = (p.Find s visit).calls := by
  cases hr : p.ParseRange visit with
  | none =>
    rw [Find_calls_of_panic p s visit hr, Find_calls_of_panic q s visit (h5.trans hr), h1, h2, h3, h4]
  | some r =>
    rw [Find_calls_of_range p s visit r hr, Find_calls_of_range q s visit r (h5.trans hr), h1, h2, h3, h4,
      h6]

theorem Get_eq_of_perm (r1 r2 : Request) (h : r2.query.entries.Perm r1.query.entries)
    (key : String) : r2.Get key = r1.Get key := by
  unfold Request.Get
  rw [get_eq_of_perm r1.query r2.query h key]

theorem Values_eq_of_perm (r1 r2 : Request) (h : r2.query.entries.Perm r1.query.entries)
    (key : String) : r2.Values key = r1.Values key := by
  unfold Request.Values
  rw [get_eq_of_perm r1.query r2.query h key]

theorem filter_get_eq (p : Pagination) (k : String) :
    p.filter.get k =
      if k ∈ p.disabledField ∨ p.filterKey.reserved k = true then none
      else match p.defaultWhere.get k with
        | some v => some v
        | none => p.ParsingQuery.get k := by
  by_cases hd : k ∈ p.disabledField
  · rw [if_pos (Or.inl hd)]
    exact foldl_delete_get_of_mem _ _ k hd
  · cases hr : p.filterKey.reserved k with
    | true =>
      rw [if_pos (Or.inr rfl)]
      unfold Pagination.filter
      rw [foldl_delete_get_of_not_mem _ _ k hd]
      exact mergeWhere_get_reserved p _ k hr
    | false =>
      rw [if_neg (by simp [hd]), filter_get_of_not_disabled p k hd hr]
      cases hdef : p.defaultWhere.get k with
      | some v =>
        exact foldl_mergeEntry_get_of_mem p _ p.defaultWhere.nodup _ k v
          (GoMap.mem_of_get p.defaultWhere k v hdef) hr
      | none =>
        exact foldl_mergeEntry_get_of_not_mem p _ _ k
          (GoMap.not_mem_keys_of_get p.defaultWhere k hdef)

/-! ## The field an entry names and the field its bounds are stored under -/

theorem beforeColon_take (l : List Char) (i : Nat) (h : (beforeColon l).length ≤ i) :
    beforeColon (l.take i) = beforeColon l := by
  induction l generalizing i with
  | nil => simp [beforeColon]
  | cons c cs ih =>
    by_cases hc : c = ':'
    · cases i with
      | zero => simp [beforeColon, hc]
      | succ j => simp [beforeColon, hc]
    · rw [beforeColon, if_neg hc] at h
      cases i with
      | zero => simp at h
      | succ j =>
        have hj : (beforeColon cs).length ≤ j := by
          simp only [List.length_cons] at h
          omega
        rw [List.take_succ_cons, beforeColon, if_neg hc, ih j hj, beforeColon, if_neg hc]

theorem byteIndexFrom_ge (l : List Char) (off n : Nat)
    (h : byteIndexFrom ':' off l = some n) : off + (beforeColon l).length ≤ n := by
  induction l generalizing off with
  | nil => rw [byteIndexFrom] at h; cases h
  | cons c cs ih =>
    rw [byteIndexFrom] at h
    by_cases hc : c = ':'
    · rw [if_pos hc] at h
      rw [beforeColon, if_pos hc]
      have := Option.some.inj h
      simp only [List.length_nil]
      omega
    · rw [if_neg hc] at h
      rw [beforeColon, if_neg hc]
      have h1 := ih (off + c.utf8Size) h
      have h2 := Char.utf8Size_pos c
      simp only [List.length_cons]
      omega

theorem beforeColon_TrimPrefix (s : String) (c : Char) (hc : c ≠ ':') :
    beforeColon (TrimPrefix s c).data = (TrimPrefix (String.mk (beforeColon s.data)) c).data := by
  unfold TrimPrefix
  cases hs : s.data with
  | nil => simp [beforeColon, hs]
  | cons d ds =>
    dsimp only
    by_cases hd : d = c
    · have hd2 : ¬ d = ':' := fun e => hc (hd.symm.trans e)
      rw [if_pos hd, beforeColon, if_neg hd2]
      dsimp only
      rw [if_pos hd]
    · rw [if_neg hd, hs]
      by_cases hd2 : d = ':'
      · rw [beforeColon, if_pos hd2]
      · rw [beforeColon, if_neg hd2]
        dsimp only
        rw [if_neg hd]

theorem beforeColon_getKey (key : String) :
    beforeColon (Range.getKey key).data =
      (Range.getKey (String.mk (beforeColon key.data))).data := by
  unfold Range.getKey
  rw [beforeColon_TrimPrefix _ '+' (by decide), beforeColon_TrimPrefix _ '-' (by decide)]

theorem parseVal_key (v key val : String) (h : Range.parseVal v = some (key, val)) :
    beforeColon key.data = beforeColon v.data := by
  unfold Range.parseVal Index at h
  cases hi : byteIndexFrom ':' 0 v.data with
  | none => rw [hi] at h; cases h
  | some index =>
    rw [hi] at h
    dsimp only at h
    split at h
    · have hk : key = String.mk (v.data.take index) := by
        have := Option.some.inj h
        exact (congrArg Prod.fst this).symm
      rw [hk]
      have hge := byteIndexFrom_ge v.data 0 index hi
      exact beforeColon_take v.data index (by omega)
    · cases h

theorem grammarField_of_entryField (v : String) (cf : RangeKey)
    (h : Range.entryField v = some cf) :
    Range.grammarField v = String.mk (beforeColon cf.data) := by
  unfold Range.entryField at h
  cases hv : Range.parseVal v with
  | none => rw [hv] at h; cases h
  | some kv =>
    obtain ⟨key, val⟩ := kv
    rw [hv] at h
    have hcf : cf = Range.getKey key := (Option.some.inj h).symm
    apply String.ext
    show (Range.getKey (String.mk (beforeColon v.data))).data = beforeColon cf.data
    rw [hcf, beforeColon_getKey, parseVal_key v key val hv]

theorem parseEntry_result (r r1 : Range) (v key val : String)
    (hv : Range.parseVal v = some (key, val)) (h : Range.parseEntry r v = some r1) :
    r1 = r ∨ (∃ typ x, r1 = Range.Add r (Range.getKey key) typ x) ∨
    (∃ x y, x ≤ y ∧
      r1 = Range.Add (Range.Add r (Range.getKey key) Gte x) (Range.getKey key) Lte y) := by
  unfold Range.parseEntry at h
  rw [hv] at h
  dsimp only at h
  split at h
  · split at h
    · exact Or.inr (Or.inl ⟨Gte, _, (Option.some.inj h).symm⟩)
    · cases h
  · split at h
    · split at h
      · exact Or.inr (Or.inl ⟨Lte, _, (Option.some.inj h).symm⟩)
      · cases h
    · split at h
      · rename_i h3
        have hlen : (Split val).length = 2 := by
          simpa [Range.isGteLte] using h3
        obtain ⟨a, b, hab⟩ := two_of_length (Split val) hlen
        rw [getVal_of_two val a b hab] at h
        exact Or.inr (Or.inr ⟨_, _, min_le_max, (Option.some.inj h).symm⟩)
      · exact Or.inl (Option.some.inj h).symm

theorem parseEntries_entryField (entries : List String) (r0 r : Range)
    (h : Range.parseEntries r0 entries = some r) :
    ∀ e ∈ entries, ∃ k, Range.entryField e = some k := by
  induction entries generalizing r0 with
  | nil => intro e he; cases he
  | cons v vs ih =>
    rw [Range.parseEntries] at h
    cases hv : Range.parseEntry r0 v with
    | none => rw [hv] at h; cases h
    | some r1 =>
      rw [hv] at h
      intro e he
      rcases List.mem_cons.mp he with h1 | h1
      · obtain ⟨key, val, hp⟩ := parseEntry_some_parseVal r0 r1 v hv
        rw [h1]
        exact ⟨Range.getKey key, by unfold Range.entryField; rw [hp]; rfl⟩
      · exact ih r1 h e h1

theorem parseEntries_ordered (entries : List String) (r0 r : Range)
    (h : Range.parseEntries r0 entries = some r)
    (hnd : (entries.map Range.entryField).Nodup)
    (hfresh : ∀ e ∈ entries, ∀ k, Range.entryField e = some k → ∀ t, r0.bound k t = none)
    (hinv : ∀ f lo hi, r0.bound f Gte = some lo → r0.bound f Lte = some hi → lo ≤ hi) :
    ∀ f lo hi, r.bound f Gte = some lo → r.bound f Lte = some hi → lo ≤ hi := by
  induction entries generalizing r0 with
  | nil =>
    rw [Range.parseEntries] at h
    rw [← Option.some.inj h]
    exact hinv
  | cons v vs ih =>
    rw [Range.parseEntries] at h
    rw [List.map_cons, List.nodup_cons] at hnd
    cases hv : Range.parseEntry r0 v with
    | none => rw [hv] at h; cases h
    | some r1 =>
      rw [hv] at h
      obtain ⟨key, val, hp⟩ := parseEntry_some_parseVal r0 r1 v hv
      have hk : Range.entryField v = some (Range.getKey key) := by
        unfold Range.entryField
        rw [hp]
        rfl
      have hk0 : ∀ t, r0.bound (Range.getKey key) t = none :=
        hfresh v (List.mem_cons_self v vs) _ hk
      have hne : ∀ e ∈ vs, ∀ k, Range.entryField e = some k → k ≠ Range.getKey key := by
        intro e he k hke hkk
        apply hnd.1
        rw [hk, ← hkk, ← hke]
        exact List.mem_map_of_mem Range.entryField he
      rcases parseEntry_result r0 r1 v key val hp hv with h1 | ⟨typ, x, h1⟩ | ⟨x, y, hxy, h1⟩
      · rw [h1] at h
        exact ih r0 h hnd.2 (fun e he => hfresh e (List.mem_cons_of_mem v he)) hinv
      · apply ih r1 h hnd.2
        · intro e he k hke t
          rw [h1, bound_Add, if_neg (fun hh => hne e he k hke hh.1)]
          exact hfresh e (List.mem_cons_of_mem v he) k hke t
        · intro f lo hi hlo hhi
          rw [h1, bound_Add] at hlo hhi
          by_cases hf : f = Range.getKey key
          · rw [hf] at hlo hhi
            by_cases ht : typ = Gte
            · rw [if_neg (fun hh => by rw [ht] at hh; exact absurd hh.2 (by decide)), hk0] at hhi
              cases hhi
            · rw [if_neg (fun hh => ht hh.2.symm), hk0] at hlo
              cases hlo
          · rw [if_neg (fun hh => hf hh.1)] at hlo hhi
            exact hinv f lo hi hlo hhi
      · apply ih r1 h hnd.2
        · intro e he k hke t
          rw [h1, bound_Add, bound_Add, if_neg (fun hh => hne e he k hke hh.1),
            if_neg (fun hh => hne e he k hke hh.1)]
          exact hfresh e (List.mem_cons_of_mem v he) k hke t
        · intro f lo hi hlo hhi
          rw [h1, bound_Add, bound_Add] at hlo hhi
          by_cases hf : f = Range.getKey key
          · rw [if_neg (fun hh => absurd hh.2 (by decide)), if_pos ⟨hf, rfl⟩] at hlo
            rw [if_pos ⟨hf, rfl⟩] at hhi
            rw [← Option.some.inj hlo, ← Option.some.inj hhi]
            exact hxy
          · rw [if_neg (fun hh => hf hh.1), if_neg (fun hh => hf hh.1)] at hlo hhi
            exact hinv f lo hi hlo hhi

/-- C8, amended: when `Range.Parse` returns and no two range entries of the
request name the same field (the text of the entry before its first colon,
without the sign), every field of the produced range map that has both a lower
and an upper bound satisfies lower <= upper. -/
theorem C8_bounds_ordered_when_fields_differ (request : Request) (r : Range)
    (f : RangeKey) (m : GoMap RangeType Int) (lo hi : Int)
    (hparse : Range.Parse GoMap.empty request = some r)
    (hnd : ((request.Values "range").map Range.grammarField).Nodup)
    (hf : r.get f = some m) (hlo : m.get Gte = some lo) (hhi : m.get Lte = some hi) :
    lo ≤ hi := by
  unfold Range.Parse at hparse
  have hsome := parseEntries_entryField _ _ _ hparse
  have hmap : (request.Values "range").map Range.grammarField =
      ((request.Values "range").map Range.entryField).map
        (fun o => match o with
          | some cf => String.mk (beforeColon cf.data)
          | none => "") := by
    rw [List.map_map]
    apply List.map_congr_left
    intro e he
    obtain ⟨k, hk⟩ := hsome e he
    show Range.grammarField e = match Range.entryField e with
      | some cf => String.mk (beforeColon cf.data)
      | none => ""
    rw [hk]
    exact grammarField_of_entryField e k hk
  rw [hmap] at hnd
  refine parseEntries_ordered _ GoMap.empty r hparse (List.Nodup.of_map _ hnd)
    (fun _ _ _ _ _ => bound_empty _ _) (fun f lo hi h1 _ => ?_) f lo hi ?_ ?_
  · rw [bound_empty] at h1
    cases h1
  · unfold Range.bound
    rw [hf]
    exact hlo
  · unfold Range.bound
    rw [hf]
    exact hhi

/-- C8, witness: the entries `age:30,18`, `x:1` and `-y:7` name the fields
`age`, `x` and `y`; `age` has the bounds 18 and 30. -/
theorem C8_witness :
    Range.Parse GoMap.empty requestRangeDistinct = some rangeDistinct ∧
    rangeDistinct.bound "age" Gte = some 18 ∧ rangeDistinct.bound "age" Lte = some 30 ∧
    (18 : Int) ≤ 30 :=
  ⟨by decide, by decide, by decide,
    C8_bounds_ordered_when_fields_differ requestRangeDistinct rangeDistinct "age"
      ((GoMap.empty.set Gte 18).set Lte 30) 18 30 (by decide) (by decide) (by decide)
      (by decide) (by decide)⟩

/-! ## Accumulation of range entries whose keys are made of one-byte characters -/

theorem not_mem_beforeColon (l : List Char) : ':' ∉ beforeColon l := by
  induction l with
  | nil => exact List.not_mem_nil _
  | cons c cs ih =>
    rw [beforeColon]
    by_cases hc : c = ':'
    · rw [if_pos hc]
      exact List.not_mem_nil _
    · rw [if_neg hc]
      intro h
      rcases List.mem_cons.mp h with h1 | h1
      · exact hc h1.symm
      · exact ih h1

theorem beforeColon_append_afterColon (l : List Char) (h : ':' ∈ l) :
    l = beforeColon l ++ ':' :: afterColon l := by
  induction l with
  | nil => cases h
  | cons c cs ih =>
    rw [beforeColon, afterColon]
    by_cases hc : c = ':'
    · rw [if_pos hc, if_pos hc, hc]
      rfl
    · rw [if_neg hc, if_neg hc]
      rcases List.mem_cons.mp h with h1 | h1
      · exact absurd h1.symm hc
      · show c :: cs = c :: (beforeColon cs ++ ':' :: afterColon cs)
        rw [← ih h1]

theorem parseVal_grammar (v : String) (hcolon : ':' ∈ v.data)
    (hbyte : ∀ c ∈ beforeColon v.data, c.utf8Size = 1) :
    Range.parseVal v = some (Range.grammarKey v, Range.grammarValue v) := by
  have hv : v = Range.grammarKey v ++ ":" ++ Range.grammarValue v := by
    apply String.ext
    have hd : (Range.grammarKey v ++ ":" ++ Range.grammarValue v).data =
        beforeColon v.data ++ ':' :: afterColon v.data := by
      simp [String.data_append, Range.grammarKey, Range.grammarValue]
    rw [hd]
    exact beforeColon_append_afterColon v.data hcolon
  have h := parseVal_single_byte_key (Range.grammarKey v) (Range.grammarValue v) hbyte
    (not_mem_beforeColon v.data)
  rw [← hv] at h
  exact h

theorem parseEntry_bound (v : String) (hcolon : ':' ∈ v.data)
    (hbyte : ∀ c ∈ beforeColon v.data, c.utf8Size = 1) (r0 : Range) :
    ∃ r1, Range.parseEntry r0 v = some r1 ∧
      ∀ f t, r1.bound f t = (Range.entryBound v f t).or (r0.bound f t) := by
  have hv := parseVal_grammar v hcolon hbyte
  have hfield : Range.grammarField v = Range.getKey (Range.grammarKey v) := rfl
  rcases hsp : Split (Range.grammarValue v) with _ | ⟨c1, _ | ⟨c2, _ | ⟨c3, rest⟩⟩⟩
  · exact absurd hsp (Split_ne_nil _)
  · cases hneg : HasPrefix (Range.grammarKey v) '-'
    · have hpe : Range.parseEntry r0 v =
          some (Range.Add r0 (Range.getKey (Range.grammarKey v)) Gte (Range.atoiOrZero c1)) := by
        unfold Range.parseEntry
        rw [hv]
        simp [Range.isGte, hsp, hneg, Range.getVal]
      refine ⟨_, hpe, ?_⟩
      intro f t
      rw [bound_Add]
      unfold Range.entryBound
      rw [hsp, hneg, hfield]
      by_cases hf : f = Range.getKey (Range.grammarKey v) <;> by_cases ht : t = Gte <;>
        simp [hf, ht]
    · have hpe : Range.parseEntry r0 v =
          some (Range.Add r0 (Range.getKey (Range.grammarKey v)) Lte (Range.atoiOrZero c1)) := by
        unfold Range.parseEntry
        rw [hv]
        simp [Range.isGte, Range.isLte, hsp, hneg, Range.getVal]
      refine ⟨_, hpe, ?_⟩
      intro f t
      rw [bound_Add]
      unfold Range.entryBound
      rw [hsp, hneg, hfield]
      by_cases hf : f = Range.getKey (Range.grammarKey v) <;> by_cases ht : t = Lte <;>
        simp [hf, ht]
  · refine ⟨_, parseEntry_of_two r0 v _ _ c1 c2 hv hsp, ?_⟩
    intro f t
    rw [bound_Add, bound_Add]
    unfold Range.entryBound
    rw [hsp, hfield]
    by_cases hf : f = Range.getKey (Range.grammarKey v)
    · by_cases ht : t = Gte
      · have hne : ¬ t = Lte := by rw [ht]; decide
        simp [hf, ht, hne]
      · by_cases ht2 : t = Lte
        · simp [hf, ht, ht2]
        · simp [hf, ht, ht2]
    · simp [hf]
  · have hpe : Range.parseEntry r0 v = some r0 := by
      unfold Range.parseEntry
      rw [hv]
      simp [Range.isGte, Range.isLte, Range.isGteLte, hsp]
    refine ⟨r0, hpe, ?_⟩
    intro f t
    unfold Range.entryBound
    rw [hsp]
    by_cases hf : f = Range.grammarField v <;> simp [hf]

theorem parseEntries_bound (entries : List String)
    (hwf : ∀ v ∈ entries, ':' ∈ v.data ∧ ∀ c ∈ beforeColon v.data, c.utf8Size = 1)
    (r0 : Range) :
    ∃ r, Range.parseEntries r0 entries = some r ∧
      ∀ f t, r.bound f t = (Range.lastBound entries f t).or (r0.bound f t) := by
  induction entries generalizing r0 with
  | nil => exact ⟨r0, rfl, fun _ _ => rfl⟩
  | cons v vs ih =>
    obtain ⟨r1, h1, hb1⟩ := parseEntry_bound v (hwf v (List.mem_cons_self v vs)).1
      (hwf v (List.mem_cons_self v vs)).2 r0
    obtain ⟨r, h2, hb2⟩ := ih (fun u hu => hwf u (List.mem_cons_of_mem v hu)) r1
    refine ⟨r, ?_, ?_⟩
    · rw [Range.parseEntries, h1]
      exact h2
    · intro f t
      rw [hb2 f t, hb1 f t, Range.lastBound, Option.or_assoc]

/-- For range entries that have a colon and a key of one-byte characters,
`Range.Parse` returns one map in which each pair of a field and a bound type
holds the value given, by the grammar, by the last entry in request order that
gives that pair a value, and nothing when no entry does; an empty list of
entries gives the empty map. -/
theorem Parse_accumulates_single_byte_keys (request : Request)
    (hwf : ∀ v ∈ request.Values "range",
      ':' ∈ v.data ∧ ∀ c ∈ beforeColon v.data, c.utf8Size = 1) :
    ∃ r, Range.Parse GoMap.empty request = some r ∧
      (∀ field typ, r.bound field typ =
        Range.lastBound (request.Values "range") field typ) ∧
      (request.Values "range" = [] → r = GoMap.empty) := by
  obtain ⟨r, h, hb⟩ := parseEntries_bound (request.Values "range") hwf GoMap.empty
  refine ⟨r, h, ?_, ?_⟩
  · intro f t
    rw [hb f t, bound_empty, Option.or_none]
  · intro he
    rw [he, Range.parseEntries] at h
    exact (Option.some.inj h).symm

/-- C13, the code at the failing input: the entries `age:5` and `日本:1` are
well formed, and by the grammar the second gives the lower bound 1 for `日本`,
but `Range.Parse` panics on them; for the entries `age:5` and `é:18` the
grammar gives the lower bound 18 for `é`, but the map `Range.Parse` returns
holds the lower bound 8 for the field `é:` and nothing for `é`. -/
theorem C13_Parse_multibyte_key_entries :
    Range.lastBound ["age:5", "日本:1"] "日本" Gte = some 1 ∧
    Range.Parse GoMap.empty (requestRange ["age:5", "日本:1"]) = none ∧
    Range.lastBound ["age:5", "é:18"] "é" Gte = some 18 ∧
    (Range.Parse GoMap.empty (requestRange ["age:5", "é:18"])).map Range.bounds =
      some [("é:", some 8, none), ("age", some 5, none)] :=
  ⟨by decide, by decide, by decide, by decide⟩

/-! ## The rename loop under safe aliases -/

theorem mem_keys_of_get {K V : Type} [DecidableEq K] (m : GoMap K V) (k : K) (v : V)
    (h : m.get k = some v) : k ∈ m.keys :=
  List.mem_map_of_mem Prod.fst (GoMap.mem_of_get m k v h)

theorem get_of_mem_keys {K V : Type} [DecidableEq K] (m : GoMap K V) (k : K)
    (h : k ∈ m.keys) : ∃ v, m.get k = some v := by
  cases hg : m.get k with
  | some v => exact ⟨v, rfl⟩
  | none => exact absurd h (GoMap.not_mem_keys_of_get m k hg)

theorem renameInv_init (p : Pagination) (r : Range) : p.renameInv r r [] := by
  refine ⟨?_, ?_, ?_, ?_⟩
  · intro k c v hk
    cases hk
  · intro k c hk
    cases hk
  · intro k _ _
    rfl
  · intro x hx
    left
    cases hg : r.get x with
    | none => exact absurd hg hx
    | some v => exact mem_keys_of_get r x v hg

theorem renameInv_step (p : Pagination) (r m : Range) (done : List RangeKey) (y : RangeKey)
    (hs : p.renameSafe r) (hi : p.renameInv r m done) :
    p.renameInv r (p.renameEntry m y) (y :: done) := by
  obtain ⟨h1, h2, h3, h4⟩ := hi
  obtain ⟨s1, s2⟩ := hs
  unfold Pagination.renameEntry
  cases hmy : m.get y with
  | none =>
    dsimp only
    refine ⟨?_, ?_, ?_, ?_⟩
    · intro k c v hk hrk hak
      rcases List.mem_cons.mp hk with hky | hkd
      · subst hky
        by_cases hd : k ∈ done
        · exact h1 k c v hd hrk hak
        · have := h3 k (mem_keys_of_get r k v hrk) (Or.inl hd)
          rw [hmy, hrk] at this
          cases this
      · exact h1 k c v hkd hrk hak
    · intro k c hk hkr hak
      rcases List.mem_cons.mp hk with hky | hkd
      · rw [hky]
        exact hmy
      · exact h2 k c hkd hkr hak
    · intro k hkr hcond
      apply h3 k hkr
      rcases hcond with hnd | hna
      · exact Or.inl (fun hd => hnd (List.mem_cons_of_mem y hd))
      · exact Or.inr hna
    · intro x hx
      rcases h4 x hx with hxr | ⟨k, hkd, hkr, hak⟩
      · exact Or.inl hxr
      · exact Or.inr ⟨k, List.mem_cons_of_mem y hkd, hkr, hak⟩
  | some v =>
    dsimp only
    cases hay : p.fieldMapping.get y with
    | none =>
      dsimp only
      refine ⟨?_, ?_, ?_, ?_⟩
      · intro k c v1 hk hrk hak
        rcases List.mem_cons.mp hk with hky | hkd
        · rw [hky, hay] at hak
          cases hak
        · exact h1 k c v1 hkd hrk hak
      · intro k c hk hkr hak
        rcases List.mem_cons.mp hk with hky | hkd
        · rw [hky, hay] at hak
          cases hak
        · exact h2 k c hkd hkr hak
      · intro k hkr hcond
        apply h3 k hkr
        rcases hcond with hnd | hna
        · exact Or.inl (fun hd => hnd (List.mem_cons_of_mem y hd))
        · exact Or.inr hna
      · intro x hx
        rcases h4 x hx with hxr | ⟨k, hkd, hkr, hak⟩
        · exact Or.inl hxr
        · exact Or.inr ⟨k, List.mem_cons_of_mem y hkd, hkr, hak⟩
    | some c =>
      dsimp only
      have hyr : y ∈ r.keys := by
        rcases h4 y (by rw [hmy]; exact fun h => Option.noConfusion h) with hyr | ⟨k, _, hkr, hak⟩
        · exact hyr
        · have := (s1 k y hkr hak).2
          rw [hay] at this
          cases this
      have hyd : y ∉ done := by
        intro hd
        have := h2 y c hd hyr hay
        rw [hmy] at this
        cases this
      have hry : r.get y = some v := by
        rw [← h3 y hyr (Or.inl hyd)]
        exact hmy
      have hcr : c ∉ r.keys := (s1 y c hyr hay).1
      have hcy : c ≠ y := fun e => hcr (e ▸ hyr)
      have hget : ∀ x, x ≠ y → x ≠ c → ((m.set c v).delete y).get x = m.get x := by
        intro x hxy hxc
        rw [GoMap.get_delete_ne _ hxy, GoMap.get_set_ne _ _ hxc]
      have hgetc : ((m.set c v).delete y).get c = some v := by
        rw [GoMap.get_delete_ne _ hcy, GoMap.get_set_self]
      refine ⟨?_, ?_, ?_, ?_⟩
      · intro k c1 v1 hk hrk hak
        rcases List.mem_cons.mp hk with hky | hkd
        · rw [hky, hay] at hak
          rw [hky, hry] at hrk
          rw [← Option.some.inj hak, ← Option.some.inj hrk]
          exact hgetc
        · have hkr : k ∈ r.keys := mem_keys_of_get r k v1 hrk
          have hc1y : c1 ≠ y := fun e => (s1 k c1 hkr hak).1 (e ▸ hyr)
          have hc1c : c1 ≠ c := by
            intro e
            rw [e] at hak
            have := s2 k y c hkr hyr hak hay
            exact hyd (this ▸ hkd)
          rw [hget c1 hc1y hc1c]
          exact h1 k c1 v1 hkd hrk hak
      · intro k c1 hk hkr hak
        rcases List.mem_cons.mp hk with hky | hkd
        · rw [hky]
          exact GoMap.get_delete_self _ y
        · have hky : k ≠ y := fun e => hyd (e ▸ hkd)
          have hkc : k ≠ c := fun e => hcr (e ▸ hkr)
          rw [hget k hky hkc]
          exact h2 k c1 hkd hkr hak
      · intro k hkr hcond
        have hky : k ≠ y := by
          intro e
          rcases hcond with hnd | hna
          · exact hnd (e ▸ List.mem_cons_self y done)
          · rw [e, hay] at hna
            cases hna
        have hkc : k ≠ c := fun e => hcr (e ▸ hkr)
        rw [hget k hky hkc]
        apply h3 k hkr
        rcases hcond with hnd | hna
        · exact Or.inl (fun hd => hnd (List.mem_cons_of_mem y hd))
        · exact Or.inr hna
      · intro x hx
        by_cases hxc : x = c
        · exact Or.inr ⟨y, List.mem_cons_self y done, hyr, hxc ▸ hay⟩
        · have hxy : x ≠ y := by
            intro e
            rw [e, GoMap.get_delete_self] at hx
            exact hx rfl
          rw [hget x hxy hxc] at hx
          rcases h4 x hx with hxr | ⟨k, hkd, hkr, hak⟩
          · exact Or.inl hxr
          · exact Or.inr ⟨k, List.mem_cons_of_mem y hkd, hkr, hak⟩

theorem renameInv_entries (p : Pagination) (r m : Range) (done visit : List RangeKey)
    (hs : p.renameSafe r) (hi : p.renameInv r m done) :
    p.renameInv r (p.renameEntries m visit) (visit.reverse ++ done) := by
  induction visit generalizing m done with
  | nil => exact hi
  | cons y t ih =>
    show p.renameInv r (p.renameEntries (p.renameEntry m y) t) ((y :: t).reverse ++ done)
    have := ih (p.renameEntry m y) (y :: done) (renameInv_step p r m done y hs hi)
    rw [List.reverse_cons, List.append_assoc]
    exact this

theorem renameInv_unique (p : Pagination) (r m1 m2 : Range) (d1 d2 : List RangeKey)
    (h1 : p.renameInv r m1 d1) (h2 : p.renameInv r m2 d2)
    (hd1 : ∀ k ∈ r.keys, k ∈ d1) (hd2 : ∀ k ∈ r.keys, k ∈ d2) (x : RangeKey) :
    m1.get x = m2.get x := by
  obtain ⟨a1, a2, a3, a4⟩ := h1
  obtain ⟨b1, b2, b3, b4⟩ := h2
  by_cases ht : ∃ k, k ∈ r.keys ∧ p.fieldMapping.get k = some x
  · obtain ⟨k, hkr, hak⟩ := ht
    obtain ⟨v, hv⟩ := get_of_mem_keys r k hkr
    rw [a1 k x v (hd1 k hkr) hv hak, b1 k x v (hd2 k hkr) hv hak]
  · by_cases hxr : x ∈ r.keys
    · cases hax : p.fieldMapping.get x with
      | none => rw [a3 x hxr (Or.inr hax), b3 x hxr (Or.inr hax)]
      | some c => rw [a2 x c (hd1 x hxr) hxr hax, b2 x c (hd2 x hxr) hxr hax]
    · have e1 : m1.get x = none := by
        by_contra hne
        rcases a4 x hne with h | ⟨k, _, hkr, hak⟩
        · exact hxr h
        · exact ht ⟨k, hkr, hak⟩
      have e2 : m2.get x = none := by
        by_contra hne
        rcases b4 x hne with h | ⟨k, _, hkr, hak⟩
        · exact hxr h
        · exact ht ⟨k, hkr, hak⟩
      rw [e1, e2]

theorem renameEntries_order_independent (p : Pagination) (r : Range)
    (hs : p.renameSafe r) (v1 v2 : List RangeKey)
    (h1 : ∀ k ∈ r.keys, k ∈ v1) (h2 : ∀ k ∈ r.keys, k ∈ v2) (x : RangeKey) :
    (p.renameEntries r v1).get x = (p.renameEntries r v2).get x := by
  apply renameInv_unique p r _ _ (v1.reverse ++ []) (v2.reverse ++ [])
    (renameInv_entries p r r [] v1 hs (renameInv_init p r))
    (renameInv_entries p r r [] v2 hs (renameInv_init p r))
  · intro k hk
    simp [h1 k hk]
  · intro k hk
    simp [h2 k hk]

/-! ## C17: the configuration across calls of `Find` -/

/-- C17, counterexample: with the alias `uid -> user_id` and the request
`?uid=1&user_id=2`, a first `Find` that visits `uid` first passes a filter with
`user_id = 2`; `Find` returns, and a second `Find` on the returned receiver
that visits `user_id` first passes a filter with `user_id = 1`. With the
aliases `a -> b`, `b -> c` and the request `?range=a:1`, a first `Find` whose
rename loop visits `a` only passes the range `b >= 1`; `Find` returns, and a
second `Find` on the returned receiver, same request, whose rename loop also
visits the entry `b` it has inserted passes the range `c >= 1`. -/
theorem C17_counterexample :
    requestAliasClashRev.query.entries = requestAliasClash.query.entries.reverse ∧
    ((paginationAlias requestAliasClash).Find GoMap.empty GoMap.keys).whereArg.map
      (fun w => w.get "user_id") = some (some (Value.str "2")) ∧
    ((paginationAlias requestAliasClash).Find GoMap.empty GoMap.keys).returned.map
      (fun p1 => (({ p1 with ctx := requestAliasClashRev } : Pagination).Find
        GoMap.empty GoMap.keys).whereArg.map (fun w => w.get "user_id")) =
      some (some (some (Value.str "1"))) ∧
    (Range.Parse GoMap.empty paginationAliasChain.ctx).map Range.bounds =
      some [("a", some 1, none)] ∧
    (paginationAliasChain.Find GoMap.empty (fun _ => ["a"])).rangeArg.map Range.bounds =
      some [("b", some 1, none)] ∧
    (paginationAliasChain.Find GoMap.empty (fun _ => ["a"])).returned.map
      (fun p1 => (p1.Find GoMap.empty (fun _ => ["a", "b"])).rangeArg.map Range.bounds) =
      some (some [("c", some 1, none)]) :=
  ⟨by decide, by decide, by decide, by decide, by decide, by decide⟩

/-- C17, amended: when `Find` returns, the receiver has the same request, default
filter map, default page size, alias table, disabled-field list,
control-parameter names, index name and pagination field as before, and a
second `Find` that visits the request parameters and the entries of the range
map in the same order makes the same driver calls with the same arguments.
Whatever the order in which the second `Find` visits the request parameters
and whatever the entries its rename loop visits, it passes the same limit, skip
and sort values; it passes a filter with the same value for every key when no
two request parameters have the same storage name; and it passes a range map
with the same bounds for every field when both rename loops visit every entry
of the parsed range map and the aliases are safe for it: no field's storage
name is itself a field of the parsed map or a key of the alias table, and no
two fields have the same storage name. -/
theorem C17_Find_keeps_configuration (p : Pagination) (s : Record)
    (visit : Range → List RangeKey) (p1 : Pagination)
    (h : (p.Find s visit).returned = some p1) :
    (p1.ctx = p.ctx ∧ p1.defaultWhere = p.defaultWhere ∧ p1.defaultLimit = p.defaultLimit ∧
      p1.fieldMapping = p.fieldMapping ∧ p1.disabledField = p.disabledField ∧
      p1.filterKey = p.filterKey ∧ p1.index = p.index ∧
      p1.paginationField = p.paginationField) ∧
    (p1.Find s visit).calls = (p.Find s visit).calls ∧
    (∀ (request1 : Request) (visit1 : Range → List RangeKey),
      request1.query.entries.Perm p.ctx.query.entries →
      (({ p1 with ctx := request1 } : Pagination).Find s visit1).limitArg =
        (p.Find s visit).limitArg ∧
      (({ p1 with ctx := request1 } : Pagination).Find s visit1).skipArg =
        (p.Find s visit).skipArg ∧
      (({ p1 with ctx := request1 } : Pagination).Find s visit1).sortArg =
        (p.Find s visit).sortArg ∧
      ((∀ f1 ∈ p.ctx.query.keys, ∀ f2 ∈ p.ctx.query.keys,
          mapped p.fieldMapping f1 = mapped p.fieldMapping f2 → f1 = f2) →
        ∀ k, (({ p1 with ctx := request1 } : Pagination).Find s visit1).whereArg.map
            (fun w => w.get k) = (p.Find s visit).whereArg.map (fun w => w.get k)) ∧
      ((∀ r0, Range.Parse GoMap.empty p.ctx = some r0 →
          (∀ k ∈ r0.keys, k ∈ visit r0) ∧ (∀ k ∈ r0.keys, k ∈ visit1 r0) ∧ p.renameSafe r0) →
        ∀ x, (({ p1 with ctx := request1 } : Pagination).Find s visit1).rangeArg.map
            (fun r => r.get x) = (p.Find s visit).rangeArg.map (fun r => r.get x))) := by
  obtain ⟨res, hp1⟩ := Find_returned p s visit p1 h
  subst hp1
  refine ⟨⟨rfl, rfl, rfl, rfl, rfl, rfl, rfl, rfl⟩,
    Find_calls_congr p _ s visit rfl rfl rfl rfl rfl rfl, ?_⟩
  intro request1 visit1 hperm
  have hlimit : ({ p with ctx := request1 } : Pagination).ParsingLimit = p.ParsingLimit := by
    unfold Pagination.ParsingLimit
    exact congrArg (fun g => match Atoi g with
      | none => p.defaultLimit
      | some limit => if limit = 0 then p.defaultLimit else limit)
      (Get_eq_of_perm p.ctx request1 hperm p.filterKey.Rows)
  have hskip : ParseSkip request1 = ParseSkip p.ctx := by
    unfold ParseSkip
    rw [Get_eq_of_perm p.ctx request1 hperm "page"]
  have hsort : ParseSorts request1 p.fieldMapping = ParseSorts p.ctx p.fieldMapping := by
    unfold ParseSorts
    rw [Get_eq_of_perm p.ctx request1 hperm "sorts"]
  have hparse : Range.Parse GoMap.empty request1 = Range.Parse GoMap.empty p.ctx := by
    unfold Range.Parse
    rw [Values_eq_of_perm p.ctx request1 hperm "range"]
  have hrange1 : ({ p with ctx := request1 } : Pagination).ParseRange visit1 =
      (Range.Parse GoMap.empty p.ctx).map (fun r0 => p.renameEntries r0 (visit1 r0)) := by
    unfold Pagination.ParseRange
    show (match Range.Parse GoMap.empty request1 with
      | none => none
      | some rangeFilter => some (p.renameEntries rangeFilter (visit1 rangeFilter))) = _
    rw [hparse]
    cases Range.Parse GoMap.empty p.ctx <;> rfl
  have hrange : p.ParseRange visit =
      (Range.Parse GoMap.empty p.ctx).map (fun r0 => p.renameEntries r0 (visit r0)) := by
    unfold Pagination.ParseRange
    cases Range.Parse GoMap.empty p.ctx <;> rfl
  refine ⟨?_, ?_, ?_, ?_, ?_⟩
  · rw [Find_limitArg, Find_limitArg]
    exact congrArg some hlimit
  · rw [Find_skipArg, Find_skipArg]
    show some (wrapInt64 (({ p with ctx := request1 } : Pagination).ParsingLimit *
      ParseSkip request1)) = _
    rw [hlimit, hskip]
  · rw [Find_sortArg, Find_sortArg]
    exact congrArg some hsort
  · intro hinj k
    rw [Find_whereArg, Find_whereArg, Option.map_map, Option.map_map]
    show Option.map _ (({ p with ctx := request1 } : Pagination).ParseRange visit1) = _
    rw [hrange1, hrange, Option.map_map, Option.map_map]
    have hfilter : ({ p with ctx := request1 } : Pagination).filter.get k = p.filter.get k := by
      rw [filter_get_eq, filter_get_eq]
      show (if k ∈ p.disabledField ∨ p.filterKey.reserved k = true then none
        else match p.defaultWhere.get k with
          | some v => some v
          | none => ({ p with ctx := request1 } : Pagination).ParsingQuery.get k) = _
      have hq : ({ p with ctx := request1 } : Pagination).ParsingQuery.get k =
          p.ParsingQuery.get k :=
        foldl_queryEntry_get_perm p p.ctx.query.entries request1.query.entries
          p.ctx.query.nodup request1.query.nodup hperm hinj k
      rw [hq]
    cases Range.Parse GoMap.empty p.ctx with
    | none => rfl
    | some r => exact congrArg some hfilter
  · intro hsafe x
    rw [Find_rangeArg, Find_rangeArg]
    show Option.map _ (({ p with ctx := request1 } : Pagination).ParseRange visit1) = _
    rw [hrange1, hrange, Option.map_map, Option.map_map]
    cases hr0 : Range.Parse GoMap.empty p.ctx with
    | none => rfl
    | some r0 =>
      obtain ⟨hv, hv1, hs⟩ := hsafe r0 hr0
      exact congrArg some (renameEntries_order_independent p r0 hs
        (visit1 r0) (visit r0) hv1 hv x)

/-- C17, witness: `Find` on `paginationFilter` over the empty table returns
`paginationFilterAfter`, whose default filter map is unchanged, and a second
`Find` makes the same driver calls. `Find` on `paginationAliasFresh` (alias
`a -> x`, request `?range=a:1&range=b:2`) whose rename loop visits `b`, then
`a`, returns `paginationAliasFreshAfter`; the aliases are safe for the parsed
map, and a second `Find` whose rename loop visits `a`, then the entry `x` it
has inserted, then `b`, passes a range map with the same bounds for every
field. -/
theorem C17_witness :
    (paginationFilter.Find GoMap.empty GoMap.keys).returned = some paginationFilterAfter ∧
    paginationFilterAfter.defaultWhere = paginationFilter.defaultWhere ∧
    (paginationFilterAfter.Find GoMap.empty GoMap.keys).calls =
      (paginationFilter.Find GoMap.empty GoMap.keys).calls ∧
    (paginationAliasFresh.Find GoMap.empty (fun _ => ["b", "a"])).returned =
      some paginationAliasFreshAfter ∧
    (∀ x, (paginationAliasFreshAfter.Find GoMap.empty
        (fun _ => ["a", "x", "b"])).rangeArg.map (fun r => r.get x) =
      (paginationAliasFresh.Find GoMap.empty (fun _ => ["b", "a"])).rangeArg.map
        (fun r => r.get x)) :=
  ⟨rfl,
    (C17_Find_keeps_configuration paginationFilter GoMap.empty GoMap.keys
      paginationFilterAfter rfl).1.2.1,
    (C17_Find_keeps_configuration paginationFilter GoMap.empty GoMap.keys
      paginationFilterAfter rfl).2.1,
    rfl,
    ((C17_Find_keeps_configuration paginationAliasFresh GoMap.empty (fun _ => ["b", "a"])
      paginationAliasFreshAfter rfl).2.2 paginationAliasFresh.ctx (fun _ => ["a", "x", "b"])
      (List.Perm.refl _)).2.2.2.2 (by
        intro r0 hr0
        have hp : Range.Parse GoMap.empty paginationAliasFresh.ctx =
            some ((Range.Add GoMap.empty "a" Gte 1).Add "b" Gte 2) := by decide
        rw [hp] at hr0
        have hr : r0 = (Range.Add GoMap.empty "a" Gte 1).Add "b" Gte 2 :=
          (Option.some.inj hr0).symm
        subst hr
        have hkeys : ∀ k, k ∈ GoMap.keys ((Range.Add GoMap.empty "a" Gte 1).Add "b" Gte 2) →
            k = "b" ∨ k = "a" := by
          intro k hk
          have hk2 : k ∈ ["b", "a"] := hk
          simpa using hk2
        have hb : paginationAliasFresh.fieldMapping.get "b" = none := by decide
        have ha : paginationAliasFresh.fieldMapping.get "a" = some "x" := by decide
        refine ⟨?_, ?_, ?_, ?_⟩
        · intro k hk
          exact hk
        · intro k hk
          rcases hkeys k hk with e | e <;> subst e <;> decide
        · intro k c hk hg
          rcases hkeys k hk with e | e
          · rw [e, hb] at hg
            cases hg
          · rw [e, ha] at hg
            cases hg
            exact ⟨by decide, by decide⟩
        · intro k1 k2 c hk1 hk2 hg1 hg2
          rcases hkeys k1 hk1 with e1 | e1
          · rw [e1, hb] at hg1
            cases hg1
          · rcases hkeys k2 hk2 with e2 | e2
            · rw [e2, hb] at hg2
              cases hg2
            · rw [e1, e2])⟩

end pager
